import Mathlib

/-!
# vChewing `CNSLM` vocabulary loader and its blob reader

A shallow embedding of `Source/Engine/LanguageModel/CNSLM.cpp` together with the
key-value blob reader it drives (`Source/Engine/vChewing/KeyValueBlobReader.h`).

Conventions of the embedding.

* A C++ `char` is a Lean `Char`, a `std::string` or `std::string_view` is a `String`
  (compared by content, as `std::string_view::operator==` and `operator<` do).
  The characters the reader gives a meaning to (space, tab, CR, LF, `#`) are ASCII.
* A `void*` is the address it holds, a `Nat`; the null pointer is `0`.
* A member function is a function from the instance before the call to its result,
  the instance after the call and, for `open`, `close` and the destructor, the system
  calls and diagnostics it performed, in program order. The queries perform none.
* What the operating system answers during one call of `open` is an argument of the
  call (`OpenEnv`).
* A call that does not return (it reads memory that is not mapped) is `none`.
-/

namespace vChewing

/-! ## `KeyValueBlobReader` -/

/-- The reader states of `KeyValueBlobReader::State`. -/
inductive State where
  | END
  | HAS_PAIR
  | ERROR
  | CAN_CONTINUE
  deriving DecidableEq, Repr

/-- The pair of views `KeyValueBlobReader::KeyValue`; the default constructor gives two
empty views. -/
structure KeyValue where
  key : String := ""
  value : String := ""
  deriving DecidableEq, Repr

/-- Blank characters of the reader: `' '` and `'\t'` (class documentation, lines 24-25). -/
def isBlank (c : Char) : Bool :=
  c == ' ' || c == '\t'

/-- Line-ending characters of the reader: LF and CR; CR LF is one of each (class
documentation, lines 25-26). -/
def isLineEnding (c : Char) : Bool :=
  c == '\n' || c == '\r'

/-- A character of a key or value token: neither blank nor line ending. -/
def isContent (c : Char) : Bool :=
  !isBlank c && !isLineEnding c

/-- The reader object: `rest` holds the bytes of `[current_, end_)`, `state_` is the
member of that name, `CAN_CONTINUE` on construction. -/
structure KeyValueBlobReader where
  rest : List Char
  state_ : State := State.CAN_CONTINUE
  deriving DecidableEq, Repr

/-- Constructor `KeyValueBlobReader(blob, size)` over the bytes of `[blob, blob + size)`. -/
def KeyValueBlobReader.mk_over (blob : List Char) : KeyValueBlobReader :=
  { rest := blob, state_ := State.CAN_CONTINUE }

/-- Modelled from the spec: steps 1 and 2 of `KeyValueBlobReader::Next`, whose body
(`KeyValueBlobReader.cpp`) is not among the sources. From the cursor, skip a maximal run
of blank and line-ending characters; if what follows starts with `#`, discard the rest of
that line up to the next line ending and start over. `inComment` says that the cursor is
inside a comment line being discarded. The result is the range left at the first
character of a record, or `[]` at the end of the range. -/
def skipToRecord : Bool → List Char → List Char
  | _, [] => []
  | true, c :: cs => if isLineEnding c then skipToRecord false cs else skipToRecord true cs
  | false, c :: cs =>
    if isBlank c || isLineEnding c then skipToRecord false cs
    else if c == '#' then skipToRecord true cs
    else c :: cs

/-- Modelled from the spec: `KeyValueBlobReader::Next(KeyValue* out)`, whose body
(`KeyValueBlobReader.cpp`) is not among the sources; the steps are those of the per-call
contract of the spec, section 4.1. The result is the returned state, the object `out`
points to after the call and the reader after the call.

* `ERROR` and `END` are returned again on every later call, without scanning.
* Steps 1-2: `skipToRecord`. Step 3: at the end of the range the state is `END`.
* Step 4: the key is the maximal run of content characters; empty is `ERROR`.
* Step 5: skip the maximal run of blanks; if none was consumed and the key is followed
  by a line ending or the end of the range, `ERROR`.
* Step 6: the value is the maximal run of content characters; empty is `ERROR`.
* Step 7: discard the rest of the line up to the next line ending.
* Step 8: write the pair to `out`, state `HAS_PAIR`. -/
def KeyValueBlobReader.Next (r : KeyValueBlobReader) (out : KeyValue) :
    State × KeyValue × KeyValueBlobReader :=
  if r.state_ = State.ERROR ∨ r.state_ = State.END then (r.state_, out, r)
  else
    match skipToRecord false r.rest with
    | [] => (State.END, out, { rest := [], state_ := State.END })
    | c :: cs =>
      let key := (c :: cs).takeWhile isContent
      let afterKey := (c :: cs).dropWhile isContent
      if key = [] then (State.ERROR, out, { rest := afterKey, state_ := State.ERROR })
      else
        let afterBlanks := afterKey.dropWhile isBlank
        if afterBlanks.length = afterKey.length ∧
            (afterKey = [] ∨ (afterKey.head?.map isLineEnding) = some true) then
          (State.ERROR, out, { rest := afterBlanks, state_ := State.ERROR })
        else
          let value := afterBlanks.takeWhile isContent
          let afterValue := afterBlanks.dropWhile isContent
          if value = [] then
            (State.ERROR, out, { rest := afterValue, state_ := State.ERROR })
          else
            (State.HAS_PAIR, { key := String.mk key, value := String.mk value },
              { rest := afterValue.dropWhile (fun ch => !isLineEnding ch),
                state_ := State.HAS_PAIR })

/-- The pairs a client obtains by calling `Next` until the returned state is not
`HAS_PAIR`, with the state that ended the calls; this is the calling pattern of the
`while` loop of `CNSLM::open` (line 69) without its body. `fuel` bounds the number of
calls; `none` when the bound is reached before the reader stops. -/
def KeyValueBlobReader.drain : Nat → KeyValueBlobReader → KeyValue →
    Option (List KeyValue × State)
  | 0, _, _ => none
  | fuel + 1, reader, out =>
    match reader.Next out with
    | (State.HAS_PAIR, keyValue, reader') =>
      (KeyValueBlobReader.drain fuel reader' keyValue).map
        (fun res => (keyValue :: res.1, res.2))
    | (state, _, _) => some ([], state)

/-- The pairs the reader emits over `blob`, in emission order. Every `HAS_PAIR` call
consumes at least one byte, so `blob.length + 1` calls reach the end
(`drain_isSome`). -/
def emitted (blob : List Char) : List KeyValue :=
  match (KeyValueBlobReader.mk_over blob).drain (blob.length + 1) {} with
  | some res => res.1
  | none => []

/-- The state (`END` or `ERROR`) that ends the reading of `blob`. -/
def finalState (blob : List Char) : State :=
  match (KeyValueBlobReader.mk_over blob).drain (blob.length + 1) {} with
  | some res => res.2
  | none => State.CAN_CONTINUE

/-! ## `CNSLM` -/

/-- Modelled from the spec: the `Row` of the index, declared in `CNSLM.h`, which is not
among the sources; the sibling `AssociatedPhrases.h` (lines 51-58) declares
`Row(std::string_view& k, std::string_view& v) : key(k), value(v)`. -/
structure Row where
  key : String
  value : String
  deriving DecidableEq, Repr

/-- Modelled from the spec: the member `keyRowMap`, declared in `CNSLM.h`, which is not
among the sources; the sibling `AssociatedPhrases.h` (line 60) declares
`std::map<std::string_view, std::vector<Row>> keyRowMap`. The value of a `std::map` is a
partial function from keys to mapped values (its iteration order is the order of the
keys, so it carries no further information): `none` is an absent key, `some rows` a
bucket. -/
abbrev KeyRowMap := String → Option (List Row)

/-- The map after `clear()`, and of a default-constructed member. -/
def KeyRowMap.clear : KeyRowMap :=
  fun _ => none

/-- The call `find(key)`: `none` stands for `end()`, `some rows` for an iterator whose
`second` is `rows`. The map is not changed. -/
def KeyRowMap.find (m : KeyRowMap) (key : String) : Option (List Row) :=
  m key

/-- The map after `operator[](key)`: an absent key is inserted with an empty vector, a
present key is left as it is. -/
def KeyRowMap.subscript (m : KeyRowMap) (key : String) : KeyRowMap :=
  fun k => if k = key then some ((m key).getD []) else m k

/-- The map after `emplace_back(k, v)` on the vector stored under `key` (the reference
`operator[]` returned): `Row(k, v)` is appended at the end of that vector. -/
def KeyRowMap.emplace_back (m : KeyRowMap) (key : String) (k v : String) : KeyRowMap :=
  fun q => if q = key then (m key).map (fun rows => rows ++ [{ key := k, value := v }])
    else m q

/-- Modelled from the spec: the `keyValue` member of a Gramambular `Unigram`; the
Gramambular headers are not among the sources. -/
structure KeyValuePair where
  key : String
  value : String
  deriving DecidableEq, Repr

/-- Modelled from the spec: `Taiyan::Gramambular::Unigram`, with the members
`CNSLM::unigramsForKey` assigns (lines 116-118). `score` is a `double` in the source; the
only value stored in it is the literal `-17.0`, an integer that a `double` holds
exactly, so it is kept as an `Int`. -/
structure Unigram where
  keyValue : KeyValuePair
  score : Int
  deriving DecidableEq, Repr

/-- Modelled from the spec: `Taiyan::Gramambular::Bigram`. The loader never builds
one. -/
structure Bigram where
  preceedingKeyValue : KeyValuePair
  keyValue : KeyValuePair
  score : Int
  deriving DecidableEq, Repr

/-- The value `MAP_FAILED` of `<sys/mman.h>`, `(void*)-1` on a 64-bit target: what `mmap`
returns when the mapping could not be established. -/
def MAP_FAILED : Nat := 2 ^ 64 - 1

/-- What the operating system answers during one call of `CNSLM::open`.

* `open_ret`: the result of `::open(path, O_RDONLY)`, a descriptor or `-1`;
* `fstat_ret`: the result of `fstat(fd, &sb)`, `0` or `-1`;
* `file`: the content of the file; `sb.st_size` is its length;
* `mmap_ret`: the pointer `mmap` returns, the address of the mapping or `MAP_FAILED`. -/
structure OpenEnv where
  open_ret : Int
  fstat_ret : Int
  file : String
  mmap_ret : Nat
  deriving DecidableEq, Repr

/-- The bytes of `[data, data + length)` as the reader constructed at line 66 finds them.
When `mmap` established the mapping they are the bytes of the file. When `mmap` returned
`MAP_FAILED` nothing is mapped there: a reader over the empty range reads no byte, a
reader over a non-empty range faults on its first read (`none`). -/
def OpenEnv.mapped (os : OpenEnv) : Option (List Char) :=
  if os.mmap_ret = MAP_FAILED then
    if os.file.data.length = 0 then some [] else none
  else some os.file.data

/-- System calls and diagnostics performed by the member functions. -/
inductive Effect where
  | sys_open (path : String) (ret : Int)
  | sys_fstat (fd : Int) (ret : Int)
  | sys_mmap (length : Nat) (fd : Int) (ret : Nat)
  | sys_munmap (addr : Nat) (length : Nat)
  | sys_close (fd : Int)
  | syslog (msg : String)
  | printf (msg : String)
  deriving DecidableEq, Repr

/-- The data members of `CNSLM`: `keyRowMap`, `fd`, `data` (the `void*` as an address,
`0` for null) and `length`. -/
structure CNSLM where
  fd : Int
  data : Nat
  length : Nat
  keyRowMap : KeyRowMap

/-- Constructor `CNSLM::CNSLM()` (lines 22-27): `fd(-1)`, `data(0)`, `length(0)` and a
default-constructed, empty `keyRowMap`. -/
def CNSLM.new : CNSLM :=
  { fd := -1, data := 0, length := 0, keyRowMap := KeyRowMap.clear }

/-- The `while` loop of `CNSLM::open` (lines 69-72): call `Next` while it returns
`HAS_PAIR`, and for each pair run
`keyRowMap[keyValue.value].emplace_back(keyValue.value, keyValue.key)`. The result is the
last state and the map. `fuel` bounds the number of iterations; `none` when it runs
out. -/
def CNSLM.open_loop : Nat → KeyValueBlobReader → KeyValue → KeyRowMap →
    Option (State × KeyRowMap)
  | 0, _, _, _ => none
  | fuel + 1, reader, out, keyRowMap =>
    match reader.Next out with
    | (State.HAS_PAIR, keyValue, reader') =>
      CNSLM.open_loop fuel reader' keyValue
        ((keyRowMap.subscript keyValue.value).emplace_back keyValue.value
          keyValue.value keyValue.key)
    | (state, _, _) => some (state, keyRowMap)

/-- The member function `CNSLM::open(path)` (lines 36-80). The result is the returned
`bool`, the instance after the call and the system calls and diagnostics made; `none`
when the call does not return. -/
def CNSLM.open (self : CNSLM) (path : String) (os : OpenEnv) :
    Option (Bool × CNSLM × List Effect) :=
  if self.data ≠ 0 then
    some (false, self, [Effect.syslog "CNSLM: Failed at Open Step 1.\n"])
  else
    let fd := os.open_ret
    if fd = -1 then
      some (false, { self with fd := fd },
        [Effect.sys_open path fd, Effect.syslog "CNSLM: Failed at Open Step 2.\n",
          Effect.printf "open:: file not exist"])
    else if os.fstat_ret = -1 then
      some (false, { self with fd := fd },
        [Effect.sys_open path fd, Effect.sys_fstat fd os.fstat_ret,
          Effect.syslog "CNSLM: Failed at Open Step 3.\n",
          Effect.printf "open:: cannot open file"])
    else
      let length := os.file.data.length
      let data := os.mmap_ret
      if data = 0 then
        some (false, { self with fd := fd, length := length, data := data },
          [Effect.sys_open path fd, Effect.sys_fstat fd os.fstat_ret,
            Effect.sys_mmap length fd data, Effect.sys_close fd,
            Effect.syslog "CNSLM: Failed at Open Step 4.\n"])
      else
        match os.mapped with
        | none => none
        | some blob =>
          match CNSLM.open_loop (length + 1) (KeyValueBlobReader.mk_over blob) {}
              self.keyRowMap with
          | none => none
          | some (state, keyRowMap) =>
            some (true, { fd := fd, data := data, length := length, keyRowMap := keyRowMap },
              [Effect.sys_open path fd, Effect.sys_fstat fd os.fstat_ret,
                Effect.sys_mmap length fd data] ++
              (if state = State.ERROR then
                [Effect.syslog "CNSLM: Failed at Open Step 5. On Error Resume Next.\n"]
              else []))

/-- The member function `CNSLM::close()` (lines 82-91). -/
def CNSLM.close (self : CNSLM) : CNSLM × List Effect :=
  if self.data ≠ 0 then
    ({ self with data := 0, keyRowMap := KeyRowMap.clear },
      [Effect.sys_munmap self.data self.length, Effect.sys_close self.fd])
  else
    ({ self with keyRowMap := KeyRowMap.clear }, [])

/-- The destructor `CNSLM::~CNSLM()` (lines 29-34). -/
def CNSLM.destructor (self : CNSLM) : CNSLM × List Effect :=
  if self.data ≠ 0 then self.close else (self, [])

set_option linter.unusedVariables false in
/-- The member function `CNSLM::bigramsForKeys` (lines 103-106), with the instance after
the call. -/
def CNSLM.bigramsForKeys (self : CNSLM) (preceedingKey key : String) :
    List Bigram × CNSLM :=
  ([], self)

/-- The member function `CNSLM::unigramsForKey` (lines 108-124), with the instance after
the call. -/
def CNSLM.unigramsForKey (self : CNSLM) (key : String) : List Unigram × CNSLM :=
  match self.keyRowMap.find key with
  | some rows =>
    (rows.map (fun row => { keyValue := { key := row.key, value := row.value },
                            score := -17 }), self)
  | none => ([], self)

/-- The member function `CNSLM::hasUnigramsForKey` (lines 126-129), with the instance
after the call. -/
def CNSLM.hasUnigramsForKey (self : CNSLM) (key : String) : Bool × CNSLM :=
  ((self.keyRowMap.find key).isSome, self)

/-- A call of a public member function by a client; `open` comes with what the operating
system answers during it. -/
inductive Call where
  | open (path : String) (os : OpenEnv)
  | close
  | unigramsForKey (key : String)
  | hasUnigramsForKey (key : String)
  | bigramsForKeys (preceedingKey key : String)
  deriving DecidableEq, Repr

/-- One call on an instance: the instance after it and the system calls it made; `none`
when the call does not return. -/
def CNSLM.call (self : CNSLM) : Call → Option (CNSLM × List Effect)
  | Call.open path os => (self.open path os).map (fun res => (res.2.1, res.2.2))
  | Call.close => some self.close
  | Call.unigramsForKey key => some ((self.unigramsForKey key).2, [])
  | Call.hasUnigramsForKey key => some ((self.hasUnigramsForKey key).2, [])
  | Call.bigramsForKeys preceedingKey key =>
    some ((self.bigramsForKeys preceedingKey key).2, [])

/-- A sequence of calls on an instance, in order: the instance after the last one and all
system calls made. -/
def CNSLM.run (self : CNSLM) : List Call → Option (CNSLM × List Effect)
  | [] => some (self, [])
  | c :: cs =>
    match self.call c with
    | none => none
    | some (s, effects) => (CNSLM.run s cs).map (fun res => (res.1, effects ++ res.2))

/-- The states a client can bring a freshly constructed instance to. -/
def CNSLM.Reachable (s : CNSLM) : Prop :=
  ∃ calls effects, CNSLM.new.run calls = some (s, effects)

/-- A check on a sequence of system calls that no mapping is released twice. `live` is
the pointer and length of the latest `mmap` that no `munmap` has released yet, if
any. An `mmap` makes its result live; a `munmap` must name the live pointer and length,
after which nothing is live. -/
def releasesOnce : Option (Nat × Nat) → List Effect → Bool
  | _, [] => true
  | _, Effect.sys_mmap length _ ret :: es => releasesOnce (some (ret, length)) es
  | live, Effect.sys_munmap addr length :: es =>
    decide (live = some (addr, length)) && releasesOnce none es
  | live, _ :: es => releasesOnce live es

/-- What is live in an instance whose history is not known: its own `data` and `length`
when `data` is not null. -/
def CNSLM.live (s : CNSLM) : Option (Nat × Nat) :=
  if s.data ≠ 0 then some (s.data, s.length) else none

/-- The records `unigramsForKey(p)` is to return after a load that emitted `pairs`: one
for each pair whose value column is `p`, in emission order, with `p` in `keyValue.key`,
the key column of the pair in `keyValue.value` and the weight `-17.0`. -/
def unigramsOf (pairs : List KeyValue) (p : String) : List Unigram :=
  (pairs.filter (fun kv => kv.value = p)).map
    (fun kv => { keyValue := { key := p, value := kv.key }, score := -17 })

/-- The instance invariant: an instance that holds no mapping has an empty index, and no
bucket of the index is empty. -/
def CNSLM.Inv (s : CNSLM) : Prop :=
  (s.data = 0 → s.keyRowMap = KeyRowMap.clear) ∧
  ∀ k rows, s.keyRowMap k = some rows → rows ≠ []

/-- The index after the body of the loop of `open` (line 71) ran for each of `pairs`, in
order, starting from `m`. -/
def loadPairs (m : KeyRowMap) (pairs : List KeyValue) : KeyRowMap :=
  pairs.foldl
    (fun acc kv => (acc.subscript kv.value).emplace_back kv.value kv.value kv.key) m

/-- The bucket `find(p)` is to give after a load that emitted `pairs` into an empty
index: absent when no pair has `p` in its value column, otherwise one
`Row(p, pair.key)` for each such pair, in emission order. -/
def rowsOf (pairs : List KeyValue) (p : String) : Option (List Row) :=
  if pairs.filter (fun kv => kv.value = p) = [] then none
  else some ((pairs.filter (fun kv => kv.value = p)).map
    (fun kv => ({ key := p, value := kv.key } : Row)))

/-- The descriptors a sequence of system calls leaves open, given those open before it:
a `::open` that returns a descriptor adds it, a `::close` removes it. -/
def descriptorsLeft : List Int → List Effect → List Int
  | held, [] => held
  | held, Effect.sys_open _ ret :: es =>
    if ret = -1 then descriptorsLeft held es else descriptorsLeft (held ++ [ret]) es
  | held, Effect.sys_close fd :: es => descriptorsLeft (held.erase fd) es
  | held, _ :: es => descriptorsLeft held es

/-! ### Concrete inputs -/

/-- The example of the spec, section 8: two records around a comment line, opened as
descriptor 3 and mapped at address 4096. -/
def exampleEnv : OpenEnv :=
  { open_ret := 3, fstat_ret := 0, file := "ㄓㄨㄥ ㄨㄣˊ\n# note\nㄓㄨㄥ ㄍㄨㄥ\n",
    mmap_ret := 4096 }

/-- The instance after `open` on `exampleEnv`. -/
def exampleLoaded : CNSLM :=
  { fd := 3, data := 4096, length := 23,
    keyRowMap := fun k =>
      if k = "ㄨㄣˊ" then some [{ key := "ㄨㄣˊ", value := "ㄓㄨㄥ" }]
      else if k = "ㄍㄨㄥ" then some [{ key := "ㄍㄨㄥ", value := "ㄓㄨㄥ" }]
      else none }

/-- The instance after `open` on `exampleEnv` followed by `close()`: no mapping, an empty
index, and the members `fd` and `length` as the `open` left them. -/
def exampleClosed : CNSLM :=
  { fd := 3, data := 0, length := 23, keyRowMap := KeyRowMap.clear }

/-- A file whose second line has a key and no value, followed by a well-formed line. -/
def truncatedEnv : OpenEnv :=
  { open_ret := 3, fstat_ret := 0, file := "ㄓㄨㄥ ㄨㄣˊ\nㄍㄨㄥ\nㄓㄨㄥ ㄍㄨㄥ\n",
    mmap_ret := 4096 }

/-- A path that cannot be opened: `::open` returns `-1`. -/
def missingEnv : OpenEnv :=
  { open_ret := -1, fstat_ret := -1, file := "", mmap_ret := MAP_FAILED }

/-- A file that opens as descriptor 3 and whose `fstat` fails. -/
def statFailureEnv : OpenEnv :=
  { open_ret := 3, fstat_ret := -1, file := "", mmap_ret := MAP_FAILED }

/-- An empty file: it opens as descriptor 3, `fstat` gives size 0, and `mmap` of length 0
fails (`EINVAL`) and returns `MAP_FAILED`. -/
def emptyFileEnv : OpenEnv :=
  { open_ret := 3, fstat_ret := 0, file := "", mmap_ret := MAP_FAILED }

/-- A non-empty file that opens and whose size is determined, and whose mapping fails:
`mmap` returns `MAP_FAILED`. -/
def unmappableEnv : OpenEnv :=
  { open_ret := 3, fstat_ret := 0, file := "ㄓㄨㄥ ㄨㄣˊ\n", mmap_ret := MAP_FAILED }

/-! ### Notions used to state the properties of the reader -/

/-- Modelled from the spec: steps 4 to 8 of `KeyValueBlobReader::Next` on the range `l`
left by steps 1 to 3, with the returned state, the object `out` points to and the range
left; `Next` is `skipToRecord` followed by this scan (`Next_eq_scanRecord`). -/
def scanRecord (l : List Char) (out : KeyValue) : State × KeyValue × List Char :=
  let key := l.takeWhile isContent
  let afterKey := l.dropWhile isContent
  if key = [] then (State.ERROR, out, afterKey)
  else
    let afterBlanks := afterKey.dropWhile isBlank
    if afterBlanks.length = afterKey.length ∧
        (afterKey = [] ∨ (afterKey.head?.map isLineEnding) = some true) then
      (State.ERROR, out, afterBlanks)
    else
      let value := afterBlanks.takeWhile isContent
      let afterValue := afterBlanks.dropWhile isContent
      if value = [] then (State.ERROR, out, afterValue)
      else
        (State.HAS_PAIR, { key := String.mk key, value := String.mk value },
          afterValue.dropWhile (fun ch => !isLineEnding ch))

/-- The readers a client can hold: a reader as constructed over a blob, and the reader
left by a call of `Next` on such a reader. -/
inductive KeyValueBlobReader.Reachable : KeyValueBlobReader → Prop where
  | constructed (blob : List Char) :
    KeyValueBlobReader.Reachable (KeyValueBlobReader.mk_over blob)
  | next (r : KeyValueBlobReader) (out : KeyValue) :
    KeyValueBlobReader.Reachable r → KeyValueBlobReader.Reachable (r.Next out).2.2

/-- The result of the call of `Next` that follows `n` earlier calls on the reader `r`,
each call receiving the object the call before it left in `out`. -/
def KeyValueBlobReader.laterNext : Nat → KeyValueBlobReader → KeyValue →
    State × KeyValue × KeyValueBlobReader
  | 0, r, out => r.Next out
  | n + 1, r, out => KeyValueBlobReader.laterNext n (r.Next out).2.2 (r.Next out).2.1

/-- A line ending: LF, CR or CR LF. -/
def isLineEndingSeq (e : List Char) : Bool :=
  e == ['\n'] || e == ['\r'] || e == ['\r', '\n']

/-- A blank line: only spaces and tabs, then a line ending. -/
def isBlankLine (l : List Char) : Bool :=
  isLineEndingSeq (l.dropWhile isBlank)

/-- A full-line comment: optional blanks, `#`, any characters other than CR and LF, then
a line ending. -/
def isCommentLine (l : List Char) : Bool :=
  match l.dropWhile isBlank with
  | [] => false
  | c :: body => c == '#' && isLineEndingSeq (body.dropWhile (fun ch => !isLineEnding ch))

/-- A position of a blob is the start of a line when the part `pre` of the blob before it
is empty or ends with a line-ending character. -/
def isLineStart (pre : List Char) : Bool :=
  match pre.getLast? with
  | none => true
  | some c => isLineEnding c

/-! ## The reader stops -/

theorem skipToRecord_length_le (b : Bool) (l : List Char) :
    (skipToRecord b l).length ≤ l.length := by
  induction l generalizing b with
  | nil => cases b <;> simp [skipToRecord]
  | cons c cs ih =>
    have h1 := ih true
    have h2 := ih false
    cases b <;> simp only [skipToRecord] <;> split_ifs <;> simp <;> omega

theorem dropWhile_length_le (p : Char → Bool) (l : List Char) :
    (l.dropWhile p).length ≤ l.length :=
  (List.dropWhile_suffix p).length_le

theorem Next_HAS_PAIR_lt (r : KeyValueBlobReader) (out kv : KeyValue)
    (r' : KeyValueBlobReader) (h : r.Next out = (State.HAS_PAIR, kv, r')) :
    r'.rest.length < r.rest.length := by
  unfold KeyValueBlobReader.Next at h
  split_ifs at h with h1
  · simp only [Prod.mk.injEq] at h
    rcases h1 with h1 | h1 <;> rw [h1] at h <;> simp at h
  · split at h
    · simp at h
    · rename_i c cs heq
      have hskip := skipToRecord_length_le false r.rest
      rw [heq] at hskip
      simp only at h
      split_ifs at h with h2 h3 h4
      · simp at h
      · simp at h
      · simp at h
      · simp only [Prod.mk.injEq, true_and] at h
        rw [← h.2]
        have hc : isContent c = true := by
          by_contra hc
          simp [List.takeWhile, hc] at h2
        have e1 : (c :: cs).dropWhile isContent = cs.dropWhile isContent := by
          simp [List.dropWhile, hc]
        have a1 := dropWhile_length_le (fun ch => !isLineEnding ch)
          ((((c :: cs).dropWhile isContent).dropWhile isBlank).dropWhile isContent)
        have a2 := dropWhile_length_le isContent
          (((c :: cs).dropWhile isContent).dropWhile isBlank)
        have a3 := dropWhile_length_le isBlank ((c :: cs).dropWhile isContent)
        have a4 := dropWhile_length_le isContent cs
        rw [e1] at a1 a2 a3
        rw [e1]
        simp only [List.length_cons] at hskip
        simp only
        omega

theorem drain_isSome (fuel : Nat) (r : KeyValueBlobReader) (out : KeyValue)
    (h : r.rest.length < fuel) : (r.drain fuel out).isSome = true := by
  induction fuel generalizing r out with
  | zero => omega
  | succ n ih =>
    unfold KeyValueBlobReader.drain
    split
    · rename_i kv r' heq
      have hlt := Next_HAS_PAIR_lt r out kv r' heq
      have := ih r' kv (by omega)
      simpa using this
    · rfl

/-- The update of the map by one iteration of the loop of `open`. -/
theorem subscript_emplace_back (m : KeyRowMap) (kv : KeyValue) (q : String) :
    ((m.subscript kv.value).emplace_back kv.value kv.value kv.key) q =
      if q = kv.value then some ((m q).getD [] ++ [{ key := kv.value, value := kv.key }])
      else m q := by
  unfold KeyRowMap.emplace_back KeyRowMap.subscript
  by_cases hq : q = kv.value
  · subst hq; simp
  · simp [hq]

theorem open_loop_eq_drain (fuel : Nat) (r : KeyValueBlobReader) (out : KeyValue)
    (m : KeyRowMap) :
    CNSLM.open_loop fuel r out m =
      (r.drain fuel out).map (fun res => (res.2, loadPairs m res.1)) := by
  unfold loadPairs
  induction fuel generalizing r out m with
  | zero => rfl
  | succ n ih =>
    unfold CNSLM.open_loop KeyValueBlobReader.drain
    split
    · rename_i kv r' heq
      rw [ih]
      cases KeyValueBlobReader.drain n r' kv <;> simp
    · rename_i st kv r' hne heq
      cases st <;> simp_all

theorem loadPairs_bucket (pairs : List KeyValue) (m : KeyRowMap) (p : String) :
    loadPairs m pairs p =
      if pairs.filter (fun kv => kv.value = p) = [] then m p
      else some ((m p).getD [] ++
        (pairs.filter (fun kv => kv.value = p)).map
          (fun kv => ({ key := p, value := kv.key } : Row))) := by
  unfold loadPairs
  induction pairs generalizing m with
  | nil => simp
  | cons kv rest ih =>
    simp only [List.foldl_cons]
    rw [ih, subscript_emplace_back]
    by_cases hp : kv.value = p
    · subst hp
      simp [List.filter_cons]
    · have hp' : ¬ p = kv.value := fun h => hp h.symm
      simp [List.filter_cons, hp, hp']

theorem drain_mk_over (blob : List Char) :
    (KeyValueBlobReader.mk_over blob).drain (blob.length + 1) {} =
      some (emitted blob, finalState blob) := by
  have h := drain_isSome (blob.length + 1) (KeyValueBlobReader.mk_over blob) {}
    (by simp [KeyValueBlobReader.mk_over])
  unfold emitted finalState
  cases hd : (KeyValueBlobReader.mk_over blob).drain (blob.length + 1) {} with
  | none => rw [hd] at h; simp at h
  | some res => rfl

/-! ## What `open` and `close` do to the instance -/

theorem open_of_held (s : CNSLM) (path : String) (os : OpenEnv) (h : s.data ≠ 0) :
    s.open path os = some (false, s, [Effect.syslog "CNSLM: Failed at Open Step 1.\n"]) := by
  unfold CNSLM.open
  simp [h]

theorem open_mapped (s : CNSLM) (path : String) (os : OpenEnv) (hdata : s.data = 0)
    (hopen : os.open_ret ≠ -1) (hstat : os.fstat_ret ≠ -1) (hnull : os.mmap_ret ≠ 0)
    (hmap : os.mmap_ret ≠ MAP_FAILED) :
    s.open path os = some (true,
      { fd := os.open_ret, data := os.mmap_ret, length := os.file.data.length,
        keyRowMap := loadPairs s.keyRowMap (emitted os.file.data) },
      [Effect.sys_open path os.open_ret, Effect.sys_fstat os.open_ret os.fstat_ret,
        Effect.sys_mmap os.file.data.length os.open_ret os.mmap_ret] ++
      (if finalState os.file.data = State.ERROR then
        [Effect.syslog "CNSLM: Failed at Open Step 5. On Error Resume Next.\n"]
      else [])) := by
  unfold CNSLM.open OpenEnv.mapped
  simp only [hdata, ne_eq, not_true_eq_false, if_false, hopen, hstat, hnull, hmap]
  rw [open_loop_eq_drain, drain_mk_over]
  rfl

theorem open_not_found (s : CNSLM) (path : String) (os : OpenEnv) (hdata : s.data = 0)
    (hopen : os.open_ret = -1) :
    s.open path os = some (false, { s with fd := os.open_ret },
      [Effect.sys_open path os.open_ret, Effect.syslog "CNSLM: Failed at Open Step 2.\n",
        Effect.printf "open:: file not exist"]) := by
  unfold CNSLM.open
  simp only [hdata, ne_eq, not_true_eq_false, if_false, hopen, if_true]

theorem open_stat_failure (s : CNSLM) (path : String) (os : OpenEnv) (hdata : s.data = 0)
    (hopen : os.open_ret ≠ -1) (hstat : os.fstat_ret = -1) :
    s.open path os = some (false, { s with fd := os.open_ret },
      [Effect.sys_open path os.open_ret, Effect.sys_fstat os.open_ret os.fstat_ret,
        Effect.syslog "CNSLM: Failed at Open Step 3.\n",
        Effect.printf "open:: cannot open file"]) := by
  unfold CNSLM.open
  simp only [hdata, ne_eq, not_true_eq_false, if_false, hopen, hstat, if_true]

theorem open_null (s : CNSLM) (path : String) (os : OpenEnv) (hdata : s.data = 0)
    (hopen : os.open_ret ≠ -1) (hstat : os.fstat_ret ≠ -1) (hnull : os.mmap_ret = 0) :
    s.open path os = some (false,
      { s with fd := os.open_ret, length := os.file.data.length, data := os.mmap_ret },
      [Effect.sys_open path os.open_ret, Effect.sys_fstat os.open_ret os.fstat_ret,
        Effect.sys_mmap os.file.data.length os.open_ret os.mmap_ret,
        Effect.sys_close os.open_ret, Effect.syslog "CNSLM: Failed at Open Step 4.\n"]) := by
  unfold CNSLM.open
  simp only [hdata, ne_eq, not_true_eq_false, if_false, hopen, hstat, hnull, if_true]

theorem open_map_failed_empty (s : CNSLM) (path : String) (os : OpenEnv)
    (hdata : s.data = 0) (hopen : os.open_ret ≠ -1) (hstat : os.fstat_ret ≠ -1)
    (hmap : os.mmap_ret = MAP_FAILED) (hlen : os.file.data.length = 0) :
    s.open path os = some (true,
      { fd := os.open_ret, data := MAP_FAILED, length := 0, keyRowMap := s.keyRowMap },
      [Effect.sys_open path os.open_ret, Effect.sys_fstat os.open_ret os.fstat_ret,
        Effect.sys_mmap 0 os.open_ret MAP_FAILED]) := by
  have hnull : MAP_FAILED ≠ 0 := by decide
  unfold CNSLM.open OpenEnv.mapped
  simp only [hdata, ne_eq, not_true_eq_false, if_false, hopen, hstat, hmap, hnull, hlen,
    if_true]
  rfl

theorem open_map_failed_fault (s : CNSLM) (path : String) (os : OpenEnv)
    (hdata : s.data = 0) (hopen : os.open_ret ≠ -1) (hstat : os.fstat_ret ≠ -1)
    (hmap : os.mmap_ret = MAP_FAILED) (hlen : os.file.data.length ≠ 0) :
    s.open path os = none := by
  have hnull : MAP_FAILED ≠ 0 := by decide
  unfold CNSLM.open OpenEnv.mapped
  simp only [hdata, ne_eq, not_true_eq_false, if_false, hopen, hstat, hmap, hnull, hlen,
    if_true]

theorem emitted_nil : emitted [] = [] := by decide

theorem open_true (s s' : CNSLM) (path : String) (os : OpenEnv) (e : List Effect)
    (h : s.open path os = some (true, s', e)) :
    s.data = 0 ∧ s'.data ≠ 0 ∧
      s'.keyRowMap = loadPairs s.keyRowMap (emitted os.file.data) := by
  by_cases hdata : s.data = 0
  swap
  · rw [open_of_held s path os hdata] at h
    simp at h
  refine ⟨hdata, ?_⟩
  by_cases hopen : os.open_ret = -1
  · rw [open_not_found s path os hdata hopen] at h
    simp at h
  by_cases hstat : os.fstat_ret = -1
  · rw [open_stat_failure s path os hdata hopen hstat] at h
    simp at h
  by_cases hnull : os.mmap_ret = 0
  · rw [open_null s path os hdata hopen hstat hnull] at h
    simp at h
  by_cases hmap : os.mmap_ret = MAP_FAILED
  · by_cases hlen : os.file.data.length = 0
    · rw [open_map_failed_empty s path os hdata hopen hstat hmap hlen] at h
      simp only [Option.some.injEq, Prod.mk.injEq, true_and] at h
      rw [← h.1, List.length_eq_zero.mp hlen, emitted_nil]
      exact ⟨(by decide : MAP_FAILED ≠ 0), rfl⟩
    · rw [open_map_failed_fault s path os hdata hopen hstat hmap hlen] at h
      simp at h
  · rw [open_mapped s path os hdata hopen hstat hnull hmap] at h
    simp only [Option.some.injEq, Prod.mk.injEq, true_and] at h
    rw [← h.1]
    exact ⟨hnull, rfl⟩

theorem open_false (s s' : CNSLM) (path : String) (os : OpenEnv) (e : List Effect)
    (h : s.open path os = some (false, s', e)) :
    s'.data = s.data ∧ s'.keyRowMap = s.keyRowMap := by
  by_cases hdata : s.data = 0
  swap
  · rw [open_of_held s path os hdata] at h
    simp only [Option.some.injEq, Prod.mk.injEq, true_and] at h
    rw [← h.1]
    exact ⟨rfl, rfl⟩
  by_cases hopen : os.open_ret = -1
  · rw [open_not_found s path os hdata hopen] at h
    simp only [Option.some.injEq, Prod.mk.injEq, true_and] at h
    rw [← h.1]
    exact ⟨rfl, rfl⟩
  by_cases hstat : os.fstat_ret = -1
  · rw [open_stat_failure s path os hdata hopen hstat] at h
    simp only [Option.some.injEq, Prod.mk.injEq, true_and] at h
    rw [← h.1]
    exact ⟨rfl, rfl⟩
  by_cases hnull : os.mmap_ret = 0
  · rw [open_null s path os hdata hopen hstat hnull] at h
    simp only [Option.some.injEq, Prod.mk.injEq, true_and] at h
    rw [← h.1]
    exact ⟨by simp [hnull, hdata], rfl⟩
  by_cases hmap : os.mmap_ret = MAP_FAILED
  · by_cases hlen : os.file.data.length = 0
    · rw [open_map_failed_empty s path os hdata hopen hstat hmap hlen] at h
      simp at h
    · rw [open_map_failed_fault s path os hdata hopen hstat hmap hlen] at h
      simp at h
  · rw [open_mapped s path os hdata hopen hstat hnull hmap] at h
    simp at h

theorem loadPairs_clear_ne_nil (pairs : List KeyValue) (k : String) (rows : List Row)
    (h : loadPairs KeyRowMap.clear pairs k = some rows) : rows ≠ [] := by
  rw [loadPairs_bucket] at h
  split_ifs at h with hf
  · simp [KeyRowMap.clear] at h
  · simp only [KeyRowMap.clear, Option.getD_none, List.nil_append, Option.some.injEq] at h
    rw [← h]
    simpa using hf

theorem open_inv (s s' : CNSLM) (path : String) (os : OpenEnv) (b : Bool)
    (e : List Effect) (hinv : s.Inv) (h : s.open path os = some (b, s', e)) : s'.Inv := by
  cases b with
  | false =>
    obtain ⟨h1, h2⟩ := open_false s s' path os e h
    unfold CNSLM.Inv at *
    rw [h1, h2]
    exact hinv
  | true =>
    obtain ⟨h1, h2, h3⟩ := open_true s s' path os e h
    refine ⟨fun h0 => absurd h0 h2, ?_⟩
    rw [h3, hinv.1 h1]
    exact fun k rows => loadPairs_clear_ne_nil _ k rows

theorem close_inv (s : CNSLM) : s.close.1.Inv := by
  unfold CNSLM.close CNSLM.Inv
  split_ifs <;> simp [KeyRowMap.clear]

theorem new_inv : CNSLM.new.Inv := by
  simp [CNSLM.new, CNSLM.Inv, KeyRowMap.clear]

theorem call_inv (s s' : CNSLM) (c : Call) (e : List Effect) (hinv : s.Inv)
    (h : s.call c = some (s', e)) : s'.Inv := by
  cases c with
  | «open» path os =>
    simp only [CNSLM.call, Option.map_eq_some'] at h
    obtain ⟨⟨b, s1, e1⟩, h1, h2⟩ := h
    simp only [Prod.mk.injEq] at h2
    rw [← h2.1]
    exact open_inv s s1 path os b e1 hinv h1
  | close =>
    simp only [CNSLM.call, Option.some.injEq, Prod.ext_iff] at h
    rw [← h.1]
    exact close_inv s
  | unigramsForKey key =>
    simp only [CNSLM.call, CNSLM.unigramsForKey, Option.some.injEq, Prod.mk.injEq] at h
    rw [← h.1]
    split <;> exact hinv
  | hasUnigramsForKey key =>
    simp only [CNSLM.call, CNSLM.hasUnigramsForKey, Option.some.injEq, Prod.mk.injEq] at h
    rw [← h.1]
    exact hinv
  | bigramsForKeys a b =>
    simp only [CNSLM.call, CNSLM.bigramsForKeys, Option.some.injEq, Prod.mk.injEq] at h
    rw [← h.1]
    exact hinv

theorem run_inv (calls : List Call) (s s' : CNSLM) (e : List Effect) (hinv : s.Inv)
    (h : s.run calls = some (s', e)) : s'.Inv := by
  induction calls generalizing s e with
  | nil =>
    simp only [CNSLM.run, Option.some.injEq, Prod.mk.injEq] at h
    rw [← h.1]
    exact hinv
  | cons c cs ih =>
    unfold CNSLM.run at h
    split at h
    · simp at h
    · rename_i s1 e1 hc
      simp only [Option.map_eq_some'] at h
      obtain ⟨⟨s2, e2⟩, h1, h2⟩ := h
      simp only [Prod.mk.injEq] at h2
      rw [h2.1] at h1
      exact ih s1 e2 (call_inv s s1 c e1 hinv hc) h1

theorem reachable_inv (s : CNSLM) (h : s.Reachable) : s.Inv := by
  obtain ⟨calls, e, hrun⟩ := h
  exact run_inv calls CNSLM.new s e new_inv hrun

/-! ## The concrete inputs -/

theorem emitted_exampleEnv :
    emitted exampleEnv.file.data =
      [{ key := "ㄓㄨㄥ", value := "ㄨㄣˊ" }, { key := "ㄓㄨㄥ", value := "ㄍㄨㄥ" }] := by
  decide

theorem finalState_exampleEnv : finalState exampleEnv.file.data = State.END := by
  decide

theorem loadPairs_exampleEnv :
    loadPairs KeyRowMap.clear (emitted exampleEnv.file.data) = exampleLoaded.keyRowMap := by
  funext k
  rw [loadPairs_bucket, emitted_exampleEnv]
  by_cases h1 : k = "ㄨㄣˊ"
  · subst h1
    decide
  · by_cases h2 : k = "ㄍㄨㄥ"
    · subst h2
      decide
    · have h1' : ¬ "ㄨㄣˊ" = k := fun h => h1 h.symm
      have h2' : ¬ "ㄍㄨㄥ" = k := fun h => h2 h.symm
      simp [List.filter_cons, h1, h2, h1', h2', exampleLoaded, KeyRowMap.clear]

theorem open_exampleEnv (s : CNSLM) (path : String) (h0 : s.data = 0)
    (hk : s.keyRowMap = KeyRowMap.clear) :
    s.open path exampleEnv = some (true, exampleLoaded,
      [Effect.sys_open path 3, Effect.sys_fstat 3 0, Effect.sys_mmap 23 3 4096]) := by
  rw [open_mapped s path exampleEnv h0 (by decide) (by decide) (by decide)
    (by decide), finalState_exampleEnv, hk, loadPairs_exampleEnv]
  rfl

theorem close_exampleLoaded :
    exampleLoaded.close = (exampleClosed, [Effect.sys_munmap 4096 23, Effect.sys_close 3]) :=
  rfl

theorem close_exampleClosed : exampleClosed.close = (exampleClosed, []) :=
  rfl

theorem exampleLoaded_reachable : exampleLoaded.Reachable :=
  ⟨[Call.open "data.txt" exampleEnv],
    [Effect.sys_open "data.txt" 3, Effect.sys_fstat 3 0, Effect.sys_mmap 23 3 4096],
    by simp [CNSLM.run, CNSLM.call, open_exampleEnv CNSLM.new "data.txt" rfl rfl]⟩

theorem exampleClosed_reachable : exampleClosed.Reachable :=
  ⟨[Call.open "data.txt" exampleEnv, Call.close],
    [Effect.sys_open "data.txt" 3, Effect.sys_fstat 3 0, Effect.sys_mmap 23 3 4096,
      Effect.sys_munmap 4096 23, Effect.sys_close 3],
    by
      simp only [CNSLM.run, CNSLM.call, open_exampleEnv CNSLM.new "data.txt" rfl rfl,
        Option.map_some', close_exampleLoaded]
      rfl⟩

theorem new_reachable : CNSLM.new.Reachable :=
  ⟨[], [], rfl⟩

/-! ## Queries after a load -/

theorem unigramsForKey_of_bucket (s : CNSLM) (pairs : List KeyValue) (p : String)
    (h : s.keyRowMap = loadPairs KeyRowMap.clear pairs) :
    (s.unigramsForKey p).1 = unigramsOf pairs p := by
  unfold CNSLM.unigramsForKey KeyRowMap.find unigramsOf
  rw [h, loadPairs_bucket]
  split_ifs with hf
  · simp [KeyRowMap.clear, hf]
  · simp [KeyRowMap.clear]

theorem find_of_bucket (s : CNSLM) (pairs : List KeyValue) (p : String)
    (h : s.keyRowMap = loadPairs KeyRowMap.clear pairs) :
    s.keyRowMap.find p = rowsOf pairs p := by
  unfold KeyRowMap.find rowsOf
  rw [h, loadPairs_bucket]
  split_ifs with hf
  · simp [KeyRowMap.clear]
  · simp [KeyRowMap.clear]

theorem unigramsOf_eq_nil (pairs : List KeyValue) (p : String)
    (h : ∀ kv ∈ pairs, kv.value ≠ p) : unigramsOf pairs p = [] := by
  unfold unigramsOf
  simp only [List.map_eq_nil_iff, List.filter_eq_nil_iff, decide_eq_true_eq]
  exact h

/-- C1: let `open` succeed on an instance a client can hold. For every phrase `p`,
`unigramsForKey(p)` then returns exactly one record per pair the reader emitted over the
file whose value column is `p`, in emission order, each with `p` in `keyValue.key`, the
key column of the pair in `keyValue.value` and the weight `-17.0`, and the empty
sequence when no emitted pair has value column `p`. Such an `open` does succeed on an
instance without a mapping whenever the path opens, `fstat` succeeds and `mmap`
establishes the mapping. -/
theorem unigramsForKey_after_open (s : CNSLM) (path : String) (os : OpenEnv)
    (hs : s.Reachable) :
    (∀ s' e, s.open path os = some (true, s', e) → ∀ p,
      (s'.unigramsForKey p).1 = unigramsOf (emitted os.file.data) p ∧
      ((∀ kv ∈ emitted os.file.data, kv.value ≠ p) → (s'.unigramsForKey p).1 = [])) ∧
    (s.data = 0 → os.open_ret ≠ -1 → os.fstat_ret ≠ -1 → os.mmap_ret ≠ 0 →
      os.mmap_ret ≠ MAP_FAILED → ∃ s' e, s.open path os = some (true, s', e)) := by
  constructor
  · intro s' e h p
    obtain ⟨h0, _, hmap⟩ := open_true s s' path os e h
    rw [(reachable_inv s hs).1 h0] at hmap
    have hu := unigramsForKey_of_bucket s' (emitted os.file.data) p hmap
    exact ⟨hu, fun hne => by rw [hu]; exact unigramsOf_eq_nil _ p hne⟩
  · intro h0 hopen hstat hnull hmap
    exact ⟨_, _, open_mapped s path os h0 hopen hstat hnull hmap⟩

/-- C1, on the example of the spec: the blob with two records around a comment line gives
one record with reading `ㄓㄨㄥ` for each of the phrases `ㄨㄣˊ` and `ㄍㄨㄥ`, and none
for `note`. -/
theorem unigramsForKey_after_open_witness :
    CNSLM.new.Reachable ∧
    CNSLM.new.open "data.txt" exampleEnv = some (true, exampleLoaded,
      [Effect.sys_open "data.txt" 3, Effect.sys_fstat 3 0, Effect.sys_mmap 23 3 4096]) ∧
    (exampleLoaded.unigramsForKey "ㄨㄣˊ").1 =
      [{ keyValue := { key := "ㄨㄣˊ", value := "ㄓㄨㄥ" }, score := -17 }] ∧
    (exampleLoaded.unigramsForKey "ㄍㄨㄥ").1 =
      [{ keyValue := { key := "ㄍㄨㄥ", value := "ㄓㄨㄥ" }, score := -17 }] ∧
    (exampleLoaded.unigramsForKey "note").1 = [] := by
  have h := unigramsForKey_after_open CNSLM.new "data.txt" exampleEnv new_reachable
  have ho := open_exampleEnv CNSLM.new "data.txt" rfl rfl
  refine ⟨new_reachable, ho, ?_, ?_, ?_⟩
  · rw [(h.1 _ _ ho "ㄨㄣˊ").1]
    decide
  · rw [(h.1 _ _ ho "ㄍㄨㄥ").1]
    decide
  · exact (h.1 _ _ ho "note").2 (by decide)

/-- C2: in every state a client can bring a fresh instance to by `open`, `close` and
query calls, and for every phrase, `hasUnigramsForKey(phrase)` is true exactly when
`unigramsForKey(phrase)` is not empty, and a bucket found in the index holds at least one
row. -/
theorem hasUnigramsForKey_iff_unigrams (s : CNSLM) (hs : s.Reachable) (phrase : String) :
    ((s.hasUnigramsForKey phrase).1 = true ↔ (s.unigramsForKey phrase).1 ≠ []) ∧
    (∀ rows, s.keyRowMap.find phrase = some rows → rows ≠ []) := by
  have hinv := (reachable_inv s hs).2 phrase
  refine ⟨?_, fun rows h => hinv rows h⟩
  unfold CNSLM.hasUnigramsForKey CNSLM.unigramsForKey KeyRowMap.find
  cases hb : s.keyRowMap phrase with
  | none => simp
  | some rows =>
    have := hinv rows hb
    simpa using this

/-- C2, on the instance loaded from the example of the spec and on a fresh one. -/
theorem hasUnigramsForKey_iff_unigrams_witness :
    exampleLoaded.Reachable ∧
    ((exampleLoaded.hasUnigramsForKey "ㄨㄣˊ").1 = true ↔
      (exampleLoaded.unigramsForKey "ㄨㄣˊ").1 ≠ []) ∧
    (exampleLoaded.hasUnigramsForKey "ㄨㄣˊ").1 = true ∧
    (exampleLoaded.hasUnigramsForKey "note").1 = false ∧
    (exampleLoaded.unigramsForKey "note").1 = [] :=
  ⟨exampleLoaded_reachable,
    (hasUnigramsForKey_iff_unigrams exampleLoaded exampleLoaded_reachable "ㄨㄣˊ").1,
    by decide, by decide, by decide⟩

theorem hasUnigramsForKey_of_bucket (s : CNSLM) (pairs : List KeyValue) (p : String)
    (h : s.keyRowMap = loadPairs KeyRowMap.clear pairs) :
    (s.hasUnigramsForKey p).1 = true ↔ ∃ kv ∈ pairs, kv.value = p := by
  unfold CNSLM.hasUnigramsForKey
  rw [find_of_bucket s pairs p h]
  unfold rowsOf
  split_ifs with hf
  · simp only [Option.isSome_none, Bool.false_eq_true, false_iff, not_exists, not_and]
    simpa [List.filter_eq_nil_iff] using hf
  · simp only [Option.isSome_some, true_iff]
    simpa [List.filter_eq_nil_iff] using hf

/-- C3: let the path open, `fstat` succeed and `mmap` establish the mapping, on an
instance without a mapping that a client can hold, and let the reader end in `ERROR`
after the pairs `emitted`. Then `open` returns `true` and logs the diagnostic; for every
phrase the bucket of the index is the one built from the emitted pairs alone, and
`unigramsForKey` and `hasUnigramsForKey` answer from those pairs. -/
theorem open_keeps_rows_before_error (s : CNSLM) (path : String) (os : OpenEnv)
    (hs : s.Reachable) (h0 : s.data = 0) (hopen : os.open_ret ≠ -1)
    (hstat : os.fstat_ret ≠ -1) (hnull : os.mmap_ret ≠ 0) (hmap : os.mmap_ret ≠ MAP_FAILED)
    (herr : finalState os.file.data = State.ERROR) :
    ∃ s' e, s.open path os = some (true, s', e) ∧
      Effect.syslog "CNSLM: Failed at Open Step 5. On Error Resume Next.\n" ∈ e ∧
      ∀ p, s'.keyRowMap.find p = rowsOf (emitted os.file.data) p ∧
        (s'.unigramsForKey p).1 = unigramsOf (emitted os.file.data) p ∧
        ((s'.hasUnigramsForKey p).1 = true ↔ ∃ kv ∈ emitted os.file.data, kv.value = p) := by
  have ho := open_mapped s path os h0 hopen hstat hnull hmap
  refine ⟨_, _, ho, ?_, ?_⟩
  · simp [herr]
  · intro p
    have hm : loadPairs s.keyRowMap (emitted os.file.data) =
        loadPairs KeyRowMap.clear (emitted os.file.data) := by
      rw [← (reachable_inv s hs).1 h0]
    exact ⟨find_of_bucket _ _ p hm, unigramsForKey_of_bucket _ _ p hm,
      hasUnigramsForKey_of_bucket _ _ p hm⟩

/-- C3, on a file whose second line is a key without a value: the record before it is
kept, the well-formed record after it is not loaded, and `open` returns `true`. -/
theorem open_keeps_rows_before_error_witness :
    emitted truncatedEnv.file.data = [{ key := "ㄓㄨㄥ", value := "ㄨㄣˊ" }] ∧
    finalState truncatedEnv.file.data = State.ERROR ∧
    ∃ s' e, CNSLM.new.open "data.txt" truncatedEnv = some (true, s', e) ∧
      (s'.unigramsForKey "ㄨㄣˊ").1 =
        [{ keyValue := { key := "ㄨㄣˊ", value := "ㄓㄨㄥ" }, score := -17 }] ∧
      (s'.hasUnigramsForKey "ㄨㄣˊ").1 = true ∧
      s'.keyRowMap.find "ㄍㄨㄥ" = none ∧
      (s'.unigramsForKey "ㄍㄨㄥ").1 = [] := by
  obtain ⟨s', e, ho, _, hq⟩ := open_keeps_rows_before_error CNSLM.new "data.txt"
    truncatedEnv new_reachable rfl (by decide) (by decide) (by decide) (by decide)
    (by decide)
  refine ⟨by decide, by decide, s', e, ho, ?_, ?_, ?_, ?_⟩
  · rw [(hq "ㄨㄣˊ").2.1]
    decide
  · exact (hq "ㄨㄣˊ").2.2.mpr ⟨{ key := "ㄓㄨㄥ", value := "ㄨㄣˊ" }, by decide, rfl⟩
  · rw [(hq "ㄍㄨㄥ").1]
    decide
  · rw [(hq "ㄍㄨㄥ").2.1]
    decide

/-- C4: on an instance that holds a mapping, `open` returns `false` for every path and
every answer of the operating system, makes no system call, and leaves the instance as
it was: index, `data`, `length` and `fd`. -/
theorem open_when_held (s : CNSLM) (path : String) (os : OpenEnv) (h : s.data ≠ 0) :
    s.open path os =
      some (false, s, [Effect.syslog "CNSLM: Failed at Open Step 1.\n"]) := by
  unfold CNSLM.open
  simp [h]

/-- C4, on the instance loaded from the example of the spec. -/
theorem open_when_held_witness :
    exampleLoaded.data ≠ 0 ∧
    exampleLoaded.open "other.txt" truncatedEnv =
      some (false, exampleLoaded, [Effect.syslog "CNSLM: Failed at Open Step 1.\n"]) :=
  ⟨by decide, open_when_held exampleLoaded "other.txt" truncatedEnv (by decide)⟩

/-- When the path opens, `fstat` succeeds and `mmap` reports failure (`MAP_FAILED`),
`open` never returns `false`: the test of line 60 compares `data` with the null pointer,
which `MAP_FAILED` is not. -/
theorem open_map_failed_not_false (s s' : CNSLM) (path : String) (os : OpenEnv)
    (e : List Effect) (h0 : s.data = 0) (hopen : os.open_ret ≠ -1)
    (hstat : os.fstat_ret ≠ -1) (hmap : os.mmap_ret = MAP_FAILED) :
    s.open path os ≠ some (false, s', e) := by
  by_cases hlen : os.file.data.length = 0
  · rw [open_map_failed_empty s path os h0 hopen hstat hmap hlen]
    simp
  · rw [open_map_failed_fault s path os h0 hopen hstat hmap hlen]
    simp

/-- C5 fails on the code: for an empty file that opens and whose size is determined,
`mmap` reports failure by returning `MAP_FAILED`, and `open` returns `true` with
`data = MAP_FAILED`, which is not null, so the instance counts as holding a mapping; for
a non-empty file in the same situation the call does not return. -/
theorem open_map_failed_returns_true :
    CNSLM.new.open "empty.txt" emptyFileEnv =
      some (true, { fd := 3, data := MAP_FAILED, length := 0, keyRowMap := KeyRowMap.clear },
        [Effect.sys_open "empty.txt" 3, Effect.sys_fstat 3 0,
          Effect.sys_mmap 0 3 MAP_FAILED]) ∧
    MAP_FAILED ≠ 0 ∧
    CNSLM.new.open "data.txt" unmappableEnv = none :=
  ⟨open_map_failed_empty CNSLM.new "empty.txt" emptyFileEnv rfl (by decide) (by decide)
      rfl rfl,
    by decide,
    open_map_failed_fault CNSLM.new "data.txt" unmappableEnv rfl (by decide) (by decide)
      rfl (by decide)⟩

/-! ## Failure of `open` -/

/-- C6 fails on the code: on the instance left by a successful `open` followed by
`close()` (no mapping, `fd = 3`), an `open` whose path cannot be opened returns `false`
and leaves `fd = -1`: the instance is not as it was before the call. -/
theorem open_failure_changes_fd :
    exampleClosed.Reachable ∧
    exampleClosed.open "missing.txt" missingEnv =
      some (false, { exampleClosed with fd := -1 },
        [Effect.sys_open "missing.txt" (-1),
          Effect.syslog "CNSLM: Failed at Open Step 2.\n",
          Effect.printf "open:: file not exist"]) ∧
    ({ exampleClosed with fd := -1 } : CNSLM).fd ≠ exampleClosed.fd ∧
    ({ exampleClosed with fd := -1 } : CNSLM) ≠ exampleClosed :=
  ⟨exampleClosed_reachable, open_not_found exampleClosed "missing.txt" missingEnv rfl rfl,
    by decide, fun h => absurd (congrArg CNSLM.fd h) (by decide)⟩

/-- C6 as amended: whenever `open` returns `false`, `data` and the index are as before
the call. If a mapping was held, the whole instance is as before and no descriptor is
left open by the call. Otherwise `fd` holds what `::open` returned during the call;
`length` is as before unless the failure is that of the mapping (`mmap` returned the
null pointer), where it holds the size of the file; and when the path could not be
opened or the mapping failed, the call leaves no descriptor open. -/
theorem open_failure_frame (s s' : CNSLM) (path : String) (os : OpenEnv)
    (e : List Effect) (h : s.open path os = some (false, s', e)) :
    s'.data = s.data ∧ s'.keyRowMap = s.keyRowMap ∧
    (s.data ≠ 0 → s' = s ∧ descriptorsLeft [] e = []) ∧
    (s.data = 0 → s'.fd = os.open_ret) ∧
    (s.data = 0 → os.open_ret = -1 ∨ os.fstat_ret = -1 → s'.length = s.length) ∧
    (s.data = 0 → os.open_ret = -1 → descriptorsLeft [] e = []) ∧
    (s.data = 0 → os.open_ret ≠ -1 → os.fstat_ret ≠ -1 →
      s'.length = os.file.data.length ∧ descriptorsLeft [] e = []) := by
  refine ⟨(open_false s s' path os e h).1, (open_false s s' path os e h).2, ?_⟩
  by_cases hdata : s.data = 0
  swap
  · rw [open_of_held s path os hdata] at h
    simp only [Option.some.injEq, Prod.mk.injEq, true_and] at h
    rw [← h.1, ← h.2]
    exact ⟨fun _ => ⟨rfl, rfl⟩, fun h0 => absurd h0 hdata, fun h0 => absurd h0 hdata,
      fun h0 => absurd h0 hdata, fun h0 => absurd h0 hdata⟩
  refine ⟨fun hne => absurd hdata hne, ?_⟩
  by_cases hopen : os.open_ret = -1
  · rw [open_not_found s path os hdata hopen] at h
    simp only [Option.some.injEq, Prod.mk.injEq, true_and] at h
    rw [← h.1, ← h.2]
    exact ⟨fun _ => rfl, fun _ _ => rfl,
      fun _ _ => by simp [descriptorsLeft, hopen], fun _ hne => absurd hopen hne⟩
  by_cases hstat : os.fstat_ret = -1
  · rw [open_stat_failure s path os hdata hopen hstat] at h
    simp only [Option.some.injEq, Prod.mk.injEq, true_and] at h
    rw [← h.1, ← h.2]
    exact ⟨fun _ => rfl, fun _ _ => rfl, fun _ ho => absurd ho hopen,
      fun _ _ hne => absurd hstat hne⟩
  by_cases hnull : os.mmap_ret = 0
  · rw [open_null s path os hdata hopen hstat hnull] at h
    simp only [Option.some.injEq, Prod.mk.injEq, true_and] at h
    rw [← h.1, ← h.2]
    refine ⟨fun _ => rfl, fun _ hor => ?_, fun _ ho => absurd ho hopen,
      fun _ _ _ => ⟨rfl, by simp [descriptorsLeft, hopen]⟩⟩
    rcases hor with ho | hs
    · exact absurd ho hopen
    · exact absurd hs hstat
  by_cases hmap : os.mmap_ret = MAP_FAILED
  · exact absurd h (open_map_failed_not_false s s' path os e hdata hopen hstat hmap)
  · rw [open_mapped s path os hdata hopen hstat hnull hmap] at h
    simp at h

/-- C6 as amended, on the instance left by a successful `open` followed by `close()` and
a path that cannot be opened. -/
theorem open_failure_frame_witness :
    exampleClosed.open "missing.txt" missingEnv =
      some (false, { exampleClosed with fd := -1 },
        [Effect.sys_open "missing.txt" (-1),
          Effect.syslog "CNSLM: Failed at Open Step 2.\n",
          Effect.printf "open:: file not exist"]) ∧
    ({ exampleClosed with fd := -1 } : CNSLM).data = exampleClosed.data ∧
    ({ exampleClosed with fd := -1 } : CNSLM).keyRowMap = exampleClosed.keyRowMap ∧
    ({ exampleClosed with fd := -1 } : CNSLM).length = exampleClosed.length :=
  have ho := open_not_found exampleClosed "missing.txt" missingEnv rfl rfl
  have hf := open_failure_frame exampleClosed _ "missing.txt" missingEnv _ ho
  ⟨ho, hf.1, hf.2.1, hf.2.2.2.2.1 rfl (Or.inl rfl)⟩

/-- The failure of `fstat` returns without closing the descriptor `::open` returned
(lines 51-55), unlike the failure branch of `mmap` (line 61): the descriptor is left
open. -/
theorem open_stat_failure_leaves_descriptor :
    CNSLM.new.open "data.txt" statFailureEnv =
      some (false, { CNSLM.new with fd := 3 },
        [Effect.sys_open "data.txt" 3, Effect.sys_fstat 3 (-1),
          Effect.syslog "CNSLM: Failed at Open Step 3.\n",
          Effect.printf "open:: cannot open file"]) ∧
    descriptorsLeft []
      [Effect.sys_open "data.txt" 3, Effect.sys_fstat 3 (-1),
        Effect.syslog "CNSLM: Failed at Open Step 3.\n",
        Effect.printf "open:: cannot open file"] = [3] :=
  ⟨open_stat_failure CNSLM.new "data.txt" statFailureEnv rfl (by decide) rfl, by decide⟩

/-! ## `close` and the queries -/

/-- C7: after `close()`, for every instance and every phrase, `hasUnigramsForKey` returns
`false` and `unigramsForKey` returns the empty sequence. -/
theorem queries_after_close (s : CNSLM) (phrase : String) :
    (s.close.1.hasUnigramsForKey phrase).1 = false ∧
    (s.close.1.unigramsForKey phrase).1 = [] := by
  unfold CNSLM.close CNSLM.hasUnigramsForKey CNSLM.unigramsForKey KeyRowMap.find
  split_ifs <;> simp [KeyRowMap.clear]

theorem close_close (s : CNSLM) : s.close.1.close = (s.close.1, []) := by
  by_cases h : s.data = 0 <;> simp [CNSLM.close, h]

theorem open_releases (s s' : CNSLM) (path : String) (os : OpenEnv) (b : Bool)
    (e : List Effect) (live : Option (Nat × Nat))
    (h : s.open path os = some (b, s', e))
    (hl : s.data ≠ 0 → live = some (s.data, s.length)) :
    ∃ live', (s'.data ≠ 0 → live' = some (s'.data, s'.length)) ∧
      ∀ rest, releasesOnce live (e ++ rest) = releasesOnce live' rest := by
  by_cases hdata : s.data = 0
  swap
  · rw [open_of_held s path os hdata] at h
    simp only [Option.some.injEq, Prod.mk.injEq] at h
    rw [← h.2.1, ← h.2.2]
    exact ⟨live, hl, fun rest => by simp [releasesOnce]⟩
  by_cases hopen : os.open_ret = -1
  · rw [open_not_found s path os hdata hopen] at h
    simp only [Option.some.injEq, Prod.mk.injEq] at h
    rw [← h.2.1, ← h.2.2]
    exact ⟨live, fun hne => absurd hdata hne, fun rest => by simp [releasesOnce]⟩
  by_cases hstat : os.fstat_ret = -1
  · rw [open_stat_failure s path os hdata hopen hstat] at h
    simp only [Option.some.injEq, Prod.mk.injEq] at h
    rw [← h.2.1, ← h.2.2]
    exact ⟨live, fun hne => absurd hdata hne, fun rest => by simp [releasesOnce]⟩
  by_cases hnull : os.mmap_ret = 0
  · rw [open_null s path os hdata hopen hstat hnull] at h
    simp only [Option.some.injEq, Prod.mk.injEq] at h
    rw [← h.2.1, ← h.2.2]
    exact ⟨some (os.mmap_ret, os.file.data.length), fun _ => rfl,
      fun rest => by simp [releasesOnce]⟩
  by_cases hmap : os.mmap_ret = MAP_FAILED
  · by_cases hlen : os.file.data.length = 0
    · rw [open_map_failed_empty s path os hdata hopen hstat hmap hlen] at h
      simp only [Option.some.injEq, Prod.mk.injEq] at h
      rw [← h.2.1, ← h.2.2]
      exact ⟨some (MAP_FAILED, 0), fun _ => rfl, fun rest => by simp [releasesOnce]⟩
    · rw [open_map_failed_fault s path os hdata hopen hstat hmap hlen] at h
      simp at h
  · rw [open_mapped s path os hdata hopen hstat hnull hmap] at h
    simp only [Option.some.injEq, Prod.mk.injEq] at h
    rw [← h.2.1, ← h.2.2]
    refine ⟨some (os.mmap_ret, os.file.data.length), fun _ => rfl, fun rest => ?_⟩
    split_ifs <;> simp [releasesOnce]

theorem close_releases (s : CNSLM) (live : Option (Nat × Nat))
    (hl : s.data ≠ 0 → live = some (s.data, s.length)) :
    ∃ live', (s.close.1.data ≠ 0 → live' = some (s.close.1.data, s.close.1.length)) ∧
      ∀ rest, releasesOnce live (s.close.2 ++ rest) = releasesOnce live' rest := by
  by_cases h : s.data = 0
  · exact ⟨live, fun hne => absurd (by simp [CNSLM.close, h]) hne,
      fun rest => by simp [CNSLM.close, h]⟩
  · exact ⟨none, fun hne => absurd (by simp [CNSLM.close, h]) hne,
      fun rest => by simp [CNSLM.close, h, releasesOnce, hl h]⟩

theorem call_releases (s s' : CNSLM) (c : Call) (e : List Effect)
    (live : Option (Nat × Nat)) (h : s.call c = some (s', e))
    (hl : s.data ≠ 0 → live = some (s.data, s.length)) :
    ∃ live', (s'.data ≠ 0 → live' = some (s'.data, s'.length)) ∧
      ∀ rest, releasesOnce live (e ++ rest) = releasesOnce live' rest := by
  cases c with
  | «open» path os =>
    simp only [CNSLM.call, Option.map_eq_some'] at h
    obtain ⟨⟨b, s1, e1⟩, h1, h2⟩ := h
    simp only [Prod.mk.injEq] at h2
    rw [← h2.1, ← h2.2]
    exact open_releases s s1 path os b e1 live h1 hl
  | close =>
    simp only [CNSLM.call, Option.some.injEq, Prod.ext_iff] at h
    rw [← h.1, ← h.2]
    exact close_releases s live hl
  | unigramsForKey key =>
    simp only [CNSLM.call, CNSLM.unigramsForKey, Option.some.injEq, Prod.mk.injEq] at h
    rw [← h.1, ← h.2]
    refine ⟨live, ?_, fun rest => rfl⟩
    split <;> exact hl
  | hasUnigramsForKey key =>
    simp only [CNSLM.call, CNSLM.hasUnigramsForKey, Option.some.injEq, Prod.mk.injEq] at h
    rw [← h.1, ← h.2]
    exact ⟨live, hl, fun rest => rfl⟩
  | bigramsForKeys a b =>
    simp only [CNSLM.call, CNSLM.bigramsForKeys, Option.some.injEq, Prod.mk.injEq] at h
    rw [← h.1, ← h.2]
    exact ⟨live, hl, fun rest => rfl⟩

theorem run_releases (calls : List Call) (s s' : CNSLM) (e : List Effect)
    (live : Option (Nat × Nat)) (h : s.run calls = some (s', e))
    (hl : s.data ≠ 0 → live = some (s.data, s.length)) :
    ∃ live', (s'.data ≠ 0 → live' = some (s'.data, s'.length)) ∧
      ∀ rest, releasesOnce live (e ++ rest) = releasesOnce live' rest := by
  induction calls generalizing s e live with
  | nil =>
    simp only [CNSLM.run, Option.some.injEq, Prod.mk.injEq] at h
    rw [← h.1, ← h.2]
    exact ⟨live, hl, fun rest => rfl⟩
  | cons c cs ih =>
    unfold CNSLM.run at h
    split at h
    · simp at h
    · rename_i s1 e1 hc
      simp only [Option.map_eq_some'] at h
      obtain ⟨⟨s2, e2⟩, h1, h2⟩ := h
      simp only [Prod.mk.injEq] at h2
      rw [h2.1] at h1
      obtain ⟨live1, hl1, hr1⟩ := call_releases s s1 c e1 live hc hl
      obtain ⟨live2, hl2, hr2⟩ := ih s1 e2 live1 h1 hl1
      refine ⟨live2, hl2, fun rest => ?_⟩
      rw [← h2.2, List.append_assoc, hr1, hr2]

theorem destructor_releases (s : CNSLM) (live : Option (Nat × Nat))
    (hl : s.data ≠ 0 → live = some (s.data, s.length)) :
    releasesOnce live s.destructor.2 = true := by
  by_cases h : s.data = 0
  · simp [CNSLM.destructor, h, releasesOnce]
  · simp [CNSLM.destructor, CNSLM.close, h, releasesOnce, hl h]

/-- C8: `close` is idempotent and releases a mapping once. For every instance, a second
`close()` changes nothing and makes no system call; `close()` on an instance without a
mapping makes no system call (no `munmap`, no `::close`); and along every sequence of
calls followed by the destructor, every `munmap` releases the mapping of the latest
`mmap`, which no earlier `munmap` has released. -/
theorem close_idempotent_releases_once (s : CNSLM) :
    s.close.1.close = (s.close.1, []) ∧
    (s.data = 0 → s.close.2 = []) ∧
    (s.data ≠ 0 → s.close.2 =
      [Effect.sys_munmap s.data s.length, Effect.sys_close s.fd]) ∧
    (∀ calls s' e, s.run calls = some (s', e) →
      releasesOnce s.live (e ++ s'.destructor.2) = true) := by
  refine ⟨close_close s, fun h => by simp [CNSLM.close, h],
    fun h => by simp [CNSLM.close, h], fun calls s' e h => ?_⟩
  have hl : s.data ≠ 0 → s.live = some (s.data, s.length) := fun hne => by
    simp [CNSLM.live, hne]
  obtain ⟨live', hl', hr⟩ := run_releases calls s s' e s.live h hl
  rw [hr]
  exact destructor_releases s' live' hl'

/-- C8, on a fresh instance: load the example, close twice, load again, destroy. -/
theorem close_idempotent_releases_once_witness :
    CNSLM.new.close.2 = [] ∧
    CNSLM.new.run [Call.open "data.txt" exampleEnv, Call.close, Call.close,
        Call.open "data.txt" exampleEnv] =
      some (exampleLoaded,
        [Effect.sys_open "data.txt" 3, Effect.sys_fstat 3 0, Effect.sys_mmap 23 3 4096,
          Effect.sys_munmap 4096 23, Effect.sys_close 3,
          Effect.sys_open "data.txt" 3, Effect.sys_fstat 3 0,
          Effect.sys_mmap 23 3 4096]) ∧
    releasesOnce none
      ([Effect.sys_open "data.txt" 3, Effect.sys_fstat 3 0, Effect.sys_mmap 23 3 4096,
          Effect.sys_munmap 4096 23, Effect.sys_close 3,
          Effect.sys_open "data.txt" 3, Effect.sys_fstat 3 0,
          Effect.sys_mmap 23 3 4096] ++ exampleLoaded.destructor.2) = true := by
  have hc := close_idempotent_releases_once CNSLM.new
  have hrun : CNSLM.new.run [Call.open "data.txt" exampleEnv, Call.close, Call.close,
        Call.open "data.txt" exampleEnv] =
      some (exampleLoaded,
        [Effect.sys_open "data.txt" 3, Effect.sys_fstat 3 0, Effect.sys_mmap 23 3 4096,
          Effect.sys_munmap 4096 23, Effect.sys_close 3,
          Effect.sys_open "data.txt" 3, Effect.sys_fstat 3 0,
          Effect.sys_mmap 23 3 4096]) := by
    simp only [CNSLM.run, CNSLM.call, open_exampleEnv CNSLM.new "data.txt" rfl rfl,
      open_exampleEnv exampleClosed "data.txt" rfl rfl, Option.map_some',
      close_exampleLoaded, close_exampleClosed]
    rfl
  exact ⟨hc.2.1 rfl, hrun, hc.2.2.2 _ _ _ hrun⟩

/-- C9: `bigramsForKeys` returns the empty sequence for every instance and every pair of
arguments. -/
theorem bigramsForKeys_empty (s : CNSLM) (preceedingKey key : String) :
    (s.bigramsForKeys preceedingKey key).1 = [] :=
  rfl

/-- C10: the three queries leave the instance as it was, for every instance and all
arguments; in particular the bucket found for the queried phrase is the same before and
after, so a query for an absent phrase does not create a bucket. -/
theorem queries_leave_state (s : CNSLM) (preceedingKey key : String) :
    (s.unigramsForKey key).2 = s ∧
    (s.hasUnigramsForKey key).2 = s ∧
    (s.bigramsForKeys preceedingKey key).2 = s ∧
    (s.unigramsForKey key).2.keyRowMap.find key = s.keyRowMap.find key ∧
    (s.hasUnigramsForKey key).2.keyRowMap.find key = s.keyRowMap.find key := by
  have h : (s.unigramsForKey key).2 = s := by
    unfold CNSLM.unigramsForKey
    split <;> rfl
  exact ⟨h, rfl, rfl, by rw [h], rfl⟩

/-! ## The reader, call by call -/

theorem Next_eq_scanRecord (r : KeyValueBlobReader) (out : KeyValue) :
    r.Next out =
      if r.state_ = State.ERROR ∨ r.state_ = State.END then (r.state_, out, r)
      else
        match skipToRecord false r.rest with
        | [] => (State.END, out, { rest := [], state_ := State.END })
        | c :: cs =>
          ((scanRecord (c :: cs) out).1, (scanRecord (c :: cs) out).2.1,
            { rest := (scanRecord (c :: cs) out).2.2,
              state_ := (scanRecord (c :: cs) out).1 }) := by
  unfold KeyValueBlobReader.Next scanRecord
  split_ifs with h
  · rfl
  · split
    · rfl
    · simp only
      split_ifs <;> rfl

theorem isLineEnding_not_content (e : Char) (h : isLineEnding e = true) :
    isContent e = false := by
  simp [isContent, h]

theorem isLineEnding_not_blank (e : Char) (h : isLineEnding e = true) :
    isBlank e = false := by
  simp only [isLineEnding, Bool.or_eq_true, beq_iff_eq] at h
  rcases h with h | h <;> subst h <;> decide

theorem isBlank_not_content (b : Char) (h : isBlank b = true) : isContent b = false := by
  simp [isContent, h]

theorem isBlank_not_lineEnding (b : Char) (h : isBlank b = true) :
    isLineEnding b = false := by
  cases h' : isLineEnding b with
  | false => rfl
  | true => rw [isLineEnding_not_blank b h'] at h; exact absurd h (by decide)

theorem isContent_not_blank (c : Char) (h : isContent c = true) : isBlank c = false := by
  simp only [isContent, Bool.and_eq_true, Bool.not_eq_true'] at h
  exact h.1

theorem isContent_not_lineEnding (c : Char) (h : isContent c = true) :
    isLineEnding c = false := by
  simp only [isContent, Bool.and_eq_true, Bool.not_eq_true'] at h
  exact h.2

theorem takeWhile_run (p : Char → Bool) (l1 l2 : List Char) (h1 : ∀ a ∈ l1, p a = true)
    (h2 : ∀ c ∈ l2.head?, p c = false) : (l1 ++ l2).takeWhile p = l1 := by
  rw [List.takeWhile_append_of_pos h1]
  cases l2 with
  | nil => simp
  | cons c t =>
    have := h2 c (by simp)
    simp [this]

theorem dropWhile_run (p : Char → Bool) (l1 l2 : List Char) (h1 : ∀ a ∈ l1, p a = true)
    (h2 : ∀ c ∈ l2.head?, p c = false) : (l1 ++ l2).dropWhile p = l2 := by
  rw [List.dropWhile_append_of_pos h1]
  cases l2 with
  | nil => simp
  | cons c t =>
    have := h2 c (by simp)
    simp [this]

theorem takeWhile_append_stop (p : Char → Bool) (q : List Char) (e : Char)
    (Y : List Char) (he : p e = false) : (q ++ e :: Y).takeWhile p = q.takeWhile p := by
  induction q with
  | nil => simp [he]
  | cons c cs ih =>
    simp only [List.cons_append, List.takeWhile_cons]
    split_ifs
    · rw [ih]
    · rfl

theorem dropWhile_append_stop (p : Char → Bool) (q : List Char) (e : Char)
    (Y : List Char) (he : p e = false) :
    (q ++ e :: Y).dropWhile p = q.dropWhile p ++ e :: Y := by
  induction q with
  | nil => simp [he]
  | cons c cs ih =>
    simp only [List.cons_append, List.dropWhile_cons]
    split_ifs
    · rw [ih]
    · rfl

theorem scanRecord_append (q : List Char) (e : Char) (Y : List Char) (out : KeyValue)
    (he : isLineEnding e = true) :
    scanRecord (q ++ e :: Y) out =
      ((scanRecord q out).1, (scanRecord q out).2.1, (scanRecord q out).2.2 ++ e :: Y) := by
  have hc := isLineEnding_not_content e he
  have hb := isLineEnding_not_blank e he
  have hn : (fun ch => !isLineEnding ch) e = false := by simp [he]
  unfold scanRecord
  simp only [fun q => takeWhile_append_stop isContent q e Y hc,
    fun q => dropWhile_append_stop isContent q e Y hc,
    fun q => dropWhile_append_stop isBlank q e Y hb,
    fun q => dropWhile_append_stop (fun ch => !isLineEnding ch) q e Y hn]
  have hcond : (((q.dropWhile isContent).dropWhile isBlank ++ e :: Y).length =
        (q.dropWhile isContent ++ e :: Y).length ∧
        (q.dropWhile isContent ++ e :: Y = [] ∨
          ((q.dropWhile isContent ++ e :: Y).head?.map isLineEnding) = some true)) ↔
      (((q.dropWhile isContent).dropWhile isBlank).length =
        (q.dropWhile isContent).length ∧
        (q.dropWhile isContent = [] ∨
          ((q.dropWhile isContent).head?.map isLineEnding) = some true)) := by
    cases hq : q.dropWhile isContent with
    | nil => simp [he]
    | cons a t =>
      simp only [List.cons_append, List.length_append, List.length_cons, List.head?_cons,
        reduceCtorEq, false_or]
      constructor
      · rintro ⟨h1, h2⟩
        exact ⟨by omega, h2⟩
      · rintro ⟨h1, h2⟩
        exact ⟨by omega, h2⟩
  simp only [hcond]
  split_ifs <;> rfl

theorem skipToRecord_suffix (b : Bool) (l : List Char) :
    ∃ p, l = p ++ skipToRecord b l := by
  induction l generalizing b with
  | nil => exact ⟨[], by cases b <;> rfl⟩
  | cons c cs ih =>
    obtain ⟨p1, h1⟩ := ih true
    obtain ⟨p2, h2⟩ := ih false
    cases b
    · simp only [skipToRecord]
      split_ifs
      · exact ⟨c :: p2, by rw [List.cons_append, ← h2]⟩
      · exact ⟨c :: p1, by rw [List.cons_append, ← h1]⟩
      · exact ⟨[], rfl⟩
    · simp only [skipToRecord]
      split_ifs
      · exact ⟨c :: p2, by rw [List.cons_append, ← h2]⟩
      · exact ⟨c :: p1, by rw [List.cons_append, ← h1]⟩

theorem skipToRecord_head (b : Bool) (l : List Char) (c : Char) (cs : List Char)
    (h : skipToRecord b l = c :: cs) : isContent c = true ∧ c ≠ '#' := by
  induction l generalizing b with
  | nil => cases b <;> simp [skipToRecord] at h
  | cons a as ih =>
    cases b
    · simp only [skipToRecord] at h
      split_ifs at h with h1 h2
      · exact ih false h
      · exact ih true h
      · simp only [List.cons.injEq] at h
        rw [← h.1]
        simp only [Bool.or_eq_true, not_or, Bool.not_eq_true] at h1
        exact ⟨by simp [isContent, h1.1, h1.2], by simpa using h2⟩
    · simp only [skipToRecord] at h
      split_ifs at h
      · exact ih false h
      · exact ih true h

theorem skipToRecord_append_cons (b : Bool) (u v : List Char) (c : Char) (cs : List Char)
    (h : skipToRecord b u = c :: cs) : skipToRecord b (u ++ v) = c :: cs ++ v := by
  induction u generalizing b with
  | nil => cases b <;> simp [skipToRecord] at h
  | cons a as ih =>
    cases b
    · simp only [skipToRecord, List.cons_append] at h ⊢
      split_ifs at h ⊢ with h1 h2
      · exact ih false h
      · exact ih true h
      · simp only [List.cons.injEq] at h
        rw [h.1, ← h.2]
        rfl
    · simp only [skipToRecord, List.cons_append] at h ⊢
      split_ifs at h ⊢
      · exact ih false h
      · exact ih true h

theorem skipToRecord_append_nil (b : Bool) (u : List Char) (a : Char) (Y : List Char)
    (h : skipToRecord b u = []) (ha : isLineEnding a = true) :
    skipToRecord b (u ++ a :: Y) = skipToRecord false Y := by
  induction u generalizing b with
  | nil => cases b <;> simp [skipToRecord, ha]
  | cons x xs ih =>
    cases b
    · simp only [skipToRecord, List.cons_append] at h ⊢
      split_ifs at h ⊢ with h1 h2
      · exact ih false h
      · exact ih true h
    · simp only [skipToRecord, List.cons_append] at h ⊢
      split_ifs at h ⊢
      · exact ih false h
      · exact ih true h

theorem skipToRecord_blanks (bl l : List Char) (h : ∀ c ∈ bl, isBlank c = true) :
    skipToRecord false (bl ++ l) = skipToRecord false l := by
  induction bl with
  | nil => rfl
  | cons c cs ih =>
    have hc := h c (by simp)
    simp only [List.cons_append, skipToRecord, hc, Bool.true_or, if_true]
    exact ih (fun x hx => h x (by simp [hx]))

theorem skipToRecord_lineEndings (es l : List Char) (h : ∀ c ∈ es, isLineEnding c = true) :
    skipToRecord false (es ++ l) = skipToRecord false l := by
  induction es with
  | nil => rfl
  | cons c cs ih =>
    have hc := h c (by simp)
    simp only [List.cons_append, skipToRecord, hc, Bool.or_true, if_true]
    exact ih (fun x hx => h x (by simp [hx]))

theorem skipToRecord_comment (body l : List Char)
    (h : ∀ c ∈ body, isLineEnding c = false) :
    skipToRecord true (body ++ l) = skipToRecord true l := by
  induction body with
  | nil => rfl
  | cons c cs ih =>
    have hc := h c (by simp)
    simp only [List.cons_append, skipToRecord, hc, Bool.false_eq_true, if_false]
    exact ih (fun x hx => h x (by simp [hx]))

theorem skipToRecord_record (c : Char) (l : List Char) (hc : isContent c = true)
    (h : c ≠ '#') : skipToRecord false (c :: l) = c :: l := by
  have h1 := isContent_not_blank c hc
  have h2 := isContent_not_lineEnding c hc
  simp [skipToRecord, h1, h2, h]

theorem Next_congr_skip (l1 l2 : List Char) (st : State) (out : KeyValue)
    (hst : ¬ (st = State.ERROR ∨ st = State.END))
    (h : skipToRecord false l1 = skipToRecord false l2) :
    KeyValueBlobReader.Next { rest := l1, state_ := st } out =
      KeyValueBlobReader.Next { rest := l2, state_ := st } out := by
  rw [Next_eq_scanRecord, Next_eq_scanRecord]
  simp only [hst, if_false, h]

theorem scanRecord_state (l : List Char) (out : KeyValue) :
    ((scanRecord l out).1 = State.ERROR ∧ (scanRecord l out).2.1 = out) ∨
      (scanRecord l out).1 = State.HAS_PAIR := by
  unfold scanRecord
  simp only
  split_ifs
  · exact Or.inl ⟨rfl, rfl⟩
  · exact Or.inl ⟨rfl, rfl⟩
  · exact Or.inl ⟨rfl, rfl⟩
  · exact Or.inr rfl

theorem Next_state_ (r : KeyValueBlobReader) (out : KeyValue) :
    (r.Next out).2.2.state_ = (r.Next out).1 := by
  rw [Next_eq_scanRecord]
  split_ifs
  · rfl
  · split <;> rfl

theorem Next_out (r : KeyValueBlobReader) (out : KeyValue)
    (h : (r.Next out).1 ≠ State.HAS_PAIR) : (r.Next out).2.1 = out := by
  rw [Next_eq_scanRecord] at h ⊢
  split_ifs at h ⊢
  · rfl
  · split at h
    · rfl
    · rename_i c cs heq
      rcases scanRecord_state (c :: cs) out with h1 | h1
      · exact h1.2
      · exact absurd h1 h

theorem Next_of_stopped (r : KeyValueBlobReader) (out : KeyValue)
    (h : r.state_ = State.ERROR ∨ r.state_ = State.END) :
    r.Next out = (r.state_, out, r) := by
  unfold KeyValueBlobReader.Next
  simp only [h, if_true]

theorem laterNext_of_stopped (n : Nat) (r : KeyValueBlobReader) (out : KeyValue)
    (h : r.state_ = State.ERROR ∨ r.state_ = State.END) :
    r.laterNext n out = (r.state_, out, r) := by
  induction n with
  | zero => exact Next_of_stopped r out h
  | succ k ih =>
    unfold KeyValueBlobReader.laterNext
    rw [Next_of_stopped r out h]
    exact ih

/-- C13: `ERROR` and `END` are absorbing. Once a call of `Next` has returned `ERROR`
(respectively `END`), it has left the object `out` points to as it was, and every later
call on the reader it left returns `ERROR` (respectively `END`) again, never `HAS_PAIR`,
writes nothing to its output argument and leaves the reader as it is. -/
theorem Next_absorbing (r r' : KeyValueBlobReader) (out out' : KeyValue) (st : State)
    (h : r.Next out = (st, out', r')) (hst : st = State.ERROR ∨ st = State.END) :
    out' = out ∧
    ∀ (n : Nat) (out2 : KeyValue),
      r'.laterNext n out2 = (st, out2, r') ∧ (r'.laterNext n out2).1 ≠ State.HAS_PAIR := by
  have hstate : r'.state_ = st := by
    have := Next_state_ r out
    rw [h] at this
    exact this
  have hout : out' = out := by
    have := Next_out r out (by rw [h]; rcases hst with h1 | h1 <;> rw [h1] <;> simp)
    rw [h] at this
    exact this
  refine ⟨hout, fun n out2 => ?_⟩
  have hl := laterNext_of_stopped n r' out2 (by rw [hstate]; exact hst)
  rw [hstate] at hl
  refine ⟨hl, ?_⟩
  rw [hl]
  rcases hst with h1 | h1 <;> rw [h1] <;> simp

/-- C13, on the blob `"ㄍㄨㄥ\n"` (a key without a value, `ERROR`) and on the empty
blob (`END`). -/
theorem Next_absorbing_witness :
    (KeyValueBlobReader.mk_over "ㄍㄨㄥ\nㄓㄨㄥ ㄨㄣˊ\n".data).Next {} =
      (State.ERROR, {}, { rest := "\nㄓㄨㄥ ㄨㄣˊ\n".data, state_ := State.ERROR }) ∧
    (KeyValueBlobReader.laterNext 2
      { rest := "\nㄓㄨㄥ ㄨㄣˊ\n".data, state_ := State.ERROR } {}).1 = State.ERROR ∧
    (KeyValueBlobReader.mk_over []).Next {} =
      (State.END, {}, { rest := [], state_ := State.END }) ∧
    (KeyValueBlobReader.laterNext 2 { rest := [], state_ := State.END } {}).1 =
      State.END := by
  have h1 : (KeyValueBlobReader.mk_over "ㄍㄨㄥ\nㄓㄨㄥ ㄨㄣˊ\n".data).Next {} =
      (State.ERROR, {}, { rest := "\nㄓㄨㄥ ㄨㄣˊ\n".data, state_ := State.ERROR }) := by
    decide
  have h2 : (KeyValueBlobReader.mk_over []).Next {} =
      (State.END, {}, { rest := [], state_ := State.END }) := by
    decide
  refine ⟨h1, ?_, h2, ?_⟩
  · rw [((Next_absorbing _ _ _ _ _ h1 (Or.inl rfl)).2 2 {}).1]
  · rw [((Next_absorbing _ _ _ _ _ h2 (Or.inr rfl)).2 2 {}).1]

theorem not_blank_not_content (x : Char) (h1 : isBlank x = false)
    (h2 : isContent x = false) : isLineEnding x = true := by
  simp only [isContent, h1, Bool.not_false, Bool.true_and, Bool.not_eq_false'] at h2
  exact h2

theorem head_dropWhile (p : Char → Bool) (l : List Char) :
    ∀ x ∈ (l.dropWhile p).head?, p x = false := by
  intro x hx
  have := List.head?_dropWhile_not p l
  rw [Option.mem_def] at hx
  rw [hx] at this
  exact this

theorem dropWhile_of_takeWhile_nil (p : Char → Bool) (l : List Char)
    (h : l.takeWhile p = []) : l.dropWhile p = l := by
  have := List.takeWhile_append_dropWhile p l
  rw [h] at this
  exact this

theorem head_of_takeWhile_nil (p : Char → Bool) (l : List Char)
    (h : l.takeWhile p = []) : ∀ x ∈ l.head?, p x = false := by
  rw [← dropWhile_of_takeWhile_nil p l h]
  exact head_dropWhile p l

theorem scanRecord_error_rest (c : Char) (cs : List Char) (out : KeyValue)
    (hc : isContent c = true) (h : (scanRecord (c :: cs) out).1 = State.ERROR) :
    ∀ x ∈ (scanRecord (c :: cs) out).2.2.head?, isLineEnding x = true := by
  unfold scanRecord at h ⊢
  simp only at h ⊢
  split_ifs at h ⊢ with h1 h2 h3
  · simp [List.takeWhile_cons, hc] at h1
  · rcases h2.2 with h4 | h4
    · rw [h4]
      simp
    · cases hk : (c :: cs).dropWhile isContent with
      | nil => simp
      | cons e t =>
        rw [hk] at h4
        simp only [List.head?_cons, Option.map_some', Option.some.injEq] at h4
        simp [isLineEnding_not_blank e h4, h4]
  · intro x hx
    rw [dropWhile_of_takeWhile_nil _ _ h3] at hx
    exact not_blank_not_content x (head_dropWhile isBlank _ x hx)
      (head_of_takeWhile_nil _ _ h3 x hx)

theorem reader_inv (r : KeyValueBlobReader) (h : r.Reachable) :
    (r.state_ = State.END → r.rest = []) ∧
    (r.state_ = State.ERROR → ∀ x ∈ r.rest.head?, isLineEnding x = true) := by
  induction h with
  | constructed blob =>
    simp [KeyValueBlobReader.mk_over]
  | next r out _ ih =>
    rw [Next_eq_scanRecord]
    split_ifs with hst
    · exact ih
    · split
      · simp
      · rename_i c cs heq
        have hc := (skipToRecord_head false r.rest c cs heq).1
        simp only
        constructor
        · intro hEnd
          rcases scanRecord_state (c :: cs) out with h1 | h1
          · rw [h1.1] at hEnd
            exact absurd hEnd (by decide)
          · rw [h1] at hEnd
            exact absurd hEnd (by decide)
        · intro hErr
          exact scanRecord_error_rest c cs out hc hErr

theorem reader_running (r : KeyValueBlobReader) (h : r.Reachable) (c : Char)
    (cs : List Char) (hrest : r.rest = c :: cs) (hc : isLineEnding c = false) :
    ¬ (r.state_ = State.ERROR ∨ r.state_ = State.END) := by
  rintro (h1 | h1)
  · have := (reader_inv r h).2 h1 c (by simp [hrest])
    rw [hc] at this
    exact absurd this (by decide)
  · have := (reader_inv r h).1 h1
    rw [hrest] at this
    exact absurd this (by simp)

theorem head_append_left (l1 l2 : List Char) (h : l1 ≠ []) :
    (l1 ++ l2).head? = l1.head? := by
  cases l1 with
  | nil => exact absurd rfl h
  | cons a t => rfl

theorem Next_state_irrelevant (l : List Char) (st st' : State) (out : KeyValue)
    (h : ¬ (st = State.ERROR ∨ st = State.END))
    (h' : ¬ (st' = State.ERROR ∨ st' = State.END)) :
    KeyValueBlobReader.Next { rest := l, state_ := st } out =
      KeyValueBlobReader.Next { rest := l, state_ := st' } out := by
  rw [Next_eq_scanRecord, Next_eq_scanRecord]
  simp only [h, h', if_false]

theorem scanRecord_pair (k sep v trail rest : List Char) (out : KeyValue)
    (hk : k ≠ []) (hkc : ∀ c ∈ k, isContent c = true)
    (hsep : sep ≠ []) (hsepb : ∀ c ∈ sep, isBlank c = true)
    (hv : v ≠ []) (hvc : ∀ c ∈ v, isContent c = true)
    (ht1 : ∀ c ∈ trail.head?, isBlank c = true)
    (ht2 : ∀ c ∈ trail, isLineEnding c = false)
    (hrest : ∀ c ∈ rest.head?, isLineEnding c = true) :
    scanRecord (k ++ (sep ++ (v ++ (trail ++ rest)))) out =
      (State.HAS_PAIR, { key := String.mk k, value := String.mk v }, rest) := by
  have hsepHead : ∀ c ∈ (sep ++ (v ++ (trail ++ rest))).head?, isContent c = false := by
    intro c hc
    rw [head_append_left _ _ hsep] at hc
    exact isBlank_not_content c (hsepb c (List.mem_of_mem_head? hc))
  have hvHead : ∀ c ∈ (v ++ (trail ++ rest)).head?, isBlank c = false := by
    intro c hc
    rw [head_append_left _ _ hv] at hc
    exact isContent_not_blank c (hvc c (List.mem_of_mem_head? hc))
  have htHead : ∀ c ∈ (trail ++ rest).head?, isContent c = false := by
    intro c hc
    by_cases ht : trail = []
    · rw [ht, List.nil_append] at hc
      exact isLineEnding_not_content c (hrest c hc)
    · rw [head_append_left _ _ ht] at hc
      exact isBlank_not_content c (ht1 c hc)
  have hrHead : ∀ c ∈ rest.head?, (fun ch => !isLineEnding ch) c = false := by
    intro c hc
    simp [hrest c hc]
  have e1 := takeWhile_run isContent k _ hkc hsepHead
  have e2 := dropWhile_run isContent k _ hkc hsepHead
  have e3 := dropWhile_run isBlank sep _ hsepb hvHead
  have e4 := takeWhile_run isContent v _ hvc htHead
  have e5 := dropWhile_run isContent v _ hvc htHead
  have e6 := dropWhile_run (fun ch => !isLineEnding ch) trail rest
    (fun c hc => by simp [ht2 c hc]) hrHead
  have hlen : ¬ ((v ++ (trail ++ rest)).length = (sep ++ (v ++ (trail ++ rest))).length ∧
      (sep ++ (v ++ (trail ++ rest)) = [] ∨
        ((sep ++ (v ++ (trail ++ rest))).head?.map isLineEnding) = some true)) := by
    rintro ⟨h1, _⟩
    have : sep.length ≠ 0 := fun h0 => hsep (List.length_eq_zero.mp h0)
    simp only [List.length_append] at h1
    omega
  unfold scanRecord
  simp only [e1, e2, e3, e4, e5, e6, hk, hv, hlen, if_false]

theorem Next_record_line_running (r : KeyValueBlobReader) (out : KeyValue)
    (pre bl k sep v trail rest : List Char)
    (hrun : ¬ (r.state_ = State.ERROR ∨ r.state_ = State.END))
    (hline : r.rest = pre ++ (bl ++ (k ++ (sep ++ (v ++ (trail ++ rest))))))
    (hpre : ∀ c ∈ pre, isLineEnding c = true)
    (hbl : ∀ c ∈ bl, isBlank c = true)
    (hk : k ≠ []) (hkc : ∀ c ∈ k, isContent c = true) (hk1 : k.head? ≠ some '#')
    (hsep : sep ≠ []) (hsepb : ∀ c ∈ sep, isBlank c = true)
    (hv : v ≠ []) (hvc : ∀ c ∈ v, isContent c = true)
    (ht1 : ∀ c ∈ trail.head?, isBlank c = true)
    (ht2 : ∀ c ∈ trail, isLineEnding c = false)
    (hrest : ∀ c ∈ rest.head?, isLineEnding c = true) :
    r.Next out = (State.HAS_PAIR, { key := String.mk k, value := String.mk v },
      { rest := rest, state_ := State.HAS_PAIR }) := by
  obtain ⟨c, k', hkeq⟩ := List.exists_cons_of_ne_nil hk
  have hcc : isContent c = true := hkc c (by simp [hkeq])
  have hc1 : c ≠ '#' := by
    intro h
    apply hk1
    rw [hkeq, h]
    rfl
  have hskip : skipToRecord false r.rest = c :: (k' ++ (sep ++ (v ++ (trail ++ rest)))) := by
    rw [hline, skipToRecord_lineEndings pre _ hpre, skipToRecord_blanks bl _ hbl, hkeq]
    exact skipToRecord_record c _ hcc hc1
  rw [Next_eq_scanRecord]
  simp only [hrun, if_false, hskip]
  have hs := scanRecord_pair k sep v trail rest out hk hkc hsep hsepb hv hvc ht1 ht2 hrest
  rw [hkeq] at hs
  simp only [List.cons_append] at hs
  rw [hs, ← hkeq]

/-- C11: let a reader a client can hold have its cursor at the start of a line made of
optional blanks, a non-empty key token `k` of content characters not starting with `#`,
one or more blanks, a non-empty value token `v` of content characters, then nothing or a
blank followed by characters other than CR and LF, and let `rest`, what follows the
line, be empty or start with a line-ending character. Then `Next` returns `HAS_PAIR`,
writes the pair `(k, v)` and leaves the cursor at `rest`; the next call behaves as the
first call on a reader constructed over `rest`, so the trailing text is in no later key
or value. The same holds when the cursor is still at the line-ending characters `pre`
before the line, where the call before left it, and that call did not return
`ERROR`. -/
theorem Next_on_record_line (r : KeyValueBlobReader) (out : KeyValue)
    (pre bl k sep v trail rest : List Char) (hr : r.Reachable)
    (hline : r.rest = pre ++ bl ++ k ++ sep ++ v ++ trail ++ rest)
    (hpre : ∀ c ∈ pre, isLineEnding c = true)
    (hstart : pre = [] ∨ r.state_ ≠ State.ERROR)
    (hbl : ∀ c ∈ bl, isBlank c = true)
    (hk : k ≠ []) (hkc : ∀ c ∈ k, isContent c = true) (hk1 : k.head? ≠ some '#')
    (hsep : sep ≠ []) (hsepb : ∀ c ∈ sep, isBlank c = true)
    (hv : v ≠ []) (hvc : ∀ c ∈ v, isContent c = true)
    (ht1 : ∀ c ∈ trail.head?, isBlank c = true)
    (ht2 : ∀ c ∈ trail, isLineEnding c = false)
    (hrest : ∀ c ∈ rest.head?, isLineEnding c = true) :
    r.Next out = (State.HAS_PAIR, { key := String.mk k, value := String.mk v },
      { rest := rest, state_ := State.HAS_PAIR }) ∧
    ∀ out2, KeyValueBlobReader.Next { rest := rest, state_ := State.HAS_PAIR } out2 =
      (KeyValueBlobReader.mk_over rest).Next out2 := by
  refine ⟨?_, fun out2 => Next_state_irrelevant rest _ _ out2 (by decide) (by decide)⟩
  simp only [List.append_assoc] at hline
  obtain ⟨c, k', hkeq⟩ := List.exists_cons_of_ne_nil hk
  have hcc : isContent c = true := hkc c (by simp [hkeq])
  have hne : r.rest ≠ [] := by
    rw [hline, hkeq]
    simp
  have hEnd : r.state_ ≠ State.END := fun h => hne ((reader_inv r hr).1 h)
  have hErr : r.state_ ≠ State.ERROR := by
    rcases hstart with h0 | h0
    · intro h
      rw [h0, List.nil_append] at hline
      cases bl with
      | nil =>
        rw [hkeq] at hline
        exact reader_running r hr c _ hline (isContent_not_lineEnding c hcc) (Or.inl h)
      | cons b bs =>
        exact reader_running r hr b _ hline
          (isBlank_not_lineEnding b (hbl b (by simp))) (Or.inl h)
    · exact h0
  have hrun : ¬ (r.state_ = State.ERROR ∨ r.state_ = State.END) := by
    rintro (h | h)
    · exact hErr h
    · exact hEnd h
  exact Next_record_line_running r out pre bl k sep v trail rest hrun hline hpre hbl hk hkc
    hk1 hsep hsepb hv hvc ht1 ht2 hrest

/-- C11, on a blob with CR LF line endings: the first line `ㄓㄨㄥ ㄨㄣˊ`, read by a
reader just constructed, and the next line `  ㄍㄨㄥ \t ㄓㄨㄥ # note`, read by the
reader the first call left. -/
theorem Next_on_record_line_witness :
    (KeyValueBlobReader.mk_over "ㄓㄨㄥ ㄨㄣˊ\r\n  ㄍㄨㄥ \t ㄓㄨㄥ # note\r\nc d".data).Next {} =
      (State.HAS_PAIR, { key := "ㄓㄨㄥ", value := "ㄨㄣˊ" },
        { rest := "\r\n  ㄍㄨㄥ \t ㄓㄨㄥ # note\r\nc d".data, state_ := State.HAS_PAIR }) ∧
    KeyValueBlobReader.Next
      { rest := "\r\n  ㄍㄨㄥ \t ㄓㄨㄥ # note\r\nc d".data, state_ := State.HAS_PAIR }
      { key := "ㄓㄨㄥ", value := "ㄨㄣˊ" } =
      (State.HAS_PAIR, { key := "ㄍㄨㄥ", value := "ㄓㄨㄥ" },
        { rest := "\r\nc d".data, state_ := State.HAS_PAIR }) := by
  have h1 := (Next_on_record_line
    (KeyValueBlobReader.mk_over "ㄓㄨㄥ ㄨㄣˊ\r\n  ㄍㄨㄥ \t ㄓㄨㄥ # note\r\nc d".data) {}
    [] [] "ㄓㄨㄥ".data " ".data "ㄨㄣˊ".data []
    "\r\n  ㄍㄨㄥ \t ㄓㄨㄥ # note\r\nc d".data
    (KeyValueBlobReader.Reachable.constructed _) (by decide) (by decide) (by decide)
    (by decide) (by decide) (by decide) (by decide) (by decide) (by decide) (by decide)
    (by decide) (by decide) (by decide) (by decide)).1
  have hr := KeyValueBlobReader.Reachable.next _ ({} : KeyValue)
    (KeyValueBlobReader.Reachable.constructed
      "ㄓㄨㄥ ㄨㄣˊ\r\n  ㄍㄨㄥ \t ㄓㄨㄥ # note\r\nc d".data)
  rw [h1] at hr
  exact ⟨h1, (Next_on_record_line _ { key := "ㄓㄨㄥ", value := "ㄨㄣˊ" } "\r\n".data
    "  ".data "ㄍㄨㄥ".data " \t ".data "ㄓㄨㄥ".data " # note".data "\r\nc d".data hr
    (by decide) (by decide) (by decide) (by decide) (by decide) (by decide) (by decide)
    (by decide) (by decide) (by decide) (by decide) (by decide) (by decide)
    (by decide)).1⟩

theorem isLineEndingSeq_cases (e : List Char) (h : isLineEndingSeq e = true) :
    ∃ a as, e = a :: as ∧ isLineEnding a = true ∧ ∀ c ∈ as, isLineEnding c = true := by
  simp only [isLineEndingSeq, Bool.or_eq_true, beq_iff_eq] at h
  rcases h with (h | h) | h
  · exact ⟨'\n', [], h, by decide, by simp⟩
  · exact ⟨'\r', [], h, by decide, by simp⟩
  · exact ⟨'\r', ['\n'], h, by decide, by decide⟩

theorem skipToRecord_lineEndingSeq (b : Bool) (e Y : List Char)
    (h : isLineEndingSeq e = true) :
    skipToRecord b (e ++ Y) = skipToRecord false Y := by
  obtain ⟨a, as, he, ha, has⟩ := isLineEndingSeq_cases e h
  rw [he, List.cons_append]
  have : skipToRecord b (a :: (as ++ Y)) = skipToRecord false (as ++ Y) := by
    cases b <;> simp [skipToRecord, ha]
  rw [this]
  exact skipToRecord_lineEndings as Y has

theorem skipToRecord_ignorable (X Y : List Char)
    (h : isBlankLine X = true ∨ isCommentLine X = true) :
    skipToRecord false (X ++ Y) = skipToRecord false Y := by
  have hsplit := List.takeWhile_append_dropWhile isBlank X
  have hbl : ∀ c ∈ X.takeWhile isBlank, isBlank c = true :=
    fun c hc => (List.mem_takeWhile_imp hc)
  rw [← hsplit, List.append_assoc, skipToRecord_blanks _ _ hbl]
  rcases h with h | h
  · exact skipToRecord_lineEndingSeq false _ Y h
  · unfold isCommentLine at h
    cases hd : X.dropWhile isBlank with
    | nil => rw [hd] at h; simp at h
    | cons c body =>
      rw [hd] at h
      simp only [Bool.and_eq_true, beq_iff_eq] at h
      obtain ⟨hc, he⟩ := h
      subst hc
      have hb := List.takeWhile_append_dropWhile (fun ch => !isLineEnding ch) body
      have hbody : ∀ x ∈ body.takeWhile (fun ch => !isLineEnding ch),
          isLineEnding x = false := by
        intro x hx
        have := List.mem_takeWhile_imp hx
        simpa using this
      have h1 : skipToRecord false ('#' :: (body ++ Y)) = skipToRecord true (body ++ Y) := by
        simp [skipToRecord, isBlank, isLineEnding]
      rw [List.cons_append, h1, ← hb, List.append_assoc, skipToRecord_comment _ _ hbody]
      exact skipToRecord_lineEndingSeq true _ Y he

theorem skipToRecord_ignorable_lines (lines : List (List Char)) (Y : List Char)
    (h : ∀ l ∈ lines, isBlankLine l = true ∨ isCommentLine l = true) :
    skipToRecord false (lines.flatten ++ Y) = skipToRecord false Y := by
  induction lines with
  | nil => rfl
  | cons l ls ih =>
    rw [List.flatten_cons, List.append_assoc, skipToRecord_ignorable l _ (h l (by simp))]
    exact ih (fun x hx => h x (by simp [hx]))

theorem scanRecord_no_value (k bl2 rest : List Char) (out : KeyValue)
    (hkc : ∀ c ∈ k, isContent c = true) (hbl2 : ∀ c ∈ bl2, isBlank c = true)
    (hrest : ∀ c ∈ rest.head?, isLineEnding c = true) :
    (scanRecord (k ++ (bl2 ++ rest)) out).1 = State.ERROR := by
  have hHead : ∀ c ∈ (bl2 ++ rest).head?, isContent c = false := by
    intro c hc
    by_cases hb : bl2 = []
    · rw [hb, List.nil_append] at hc
      exact isLineEnding_not_content c (hrest c hc)
    · rw [head_append_left _ _ hb] at hc
      exact isBlank_not_content c (hbl2 c (List.mem_of_mem_head? hc))
  have hrHead : ∀ c ∈ rest.head?, isBlank c = false :=
    fun c hc => isLineEnding_not_blank c (hrest c hc)
  have e2 := dropWhile_run isContent k _ hkc hHead
  have e3 := dropWhile_run isBlank bl2 rest hbl2 hrHead
  have e4 : rest.takeWhile isContent = [] := by
    cases rest with
    | nil => rfl
    | cons x t =>
      have := isLineEnding_not_content x (hrest x (by simp))
      simp [this]
  rcases scanRecord_state (k ++ (bl2 ++ rest)) out with h | h
  · exact h.1
  · exfalso
    unfold scanRecord at h
    simp only [e2, e3, e4] at h
    split_ifs at h

theorem drain_of_not_pair (r : KeyValueBlobReader) (out : KeyValue) (fuel : Nat)
    (h : (r.Next out).1 ≠ State.HAS_PAIR) :
    r.drain (fuel + 1) out = some ([], (r.Next out).1) := by
  unfold KeyValueBlobReader.drain
  split
  · rename_i kv r' heq
    rw [heq] at h
    exact absurd rfl h
  · rename_i st kv r' hne heq
    rw [heq]

/-- C12: a value is mandatory. Let a reader a client can hold have before its cursor
only blank lines and full-line comments (`lines`), and then a line made of optional
blanks, a key token and nothing else but optional blanks up to a line ending or the end
of the range. Then `Next` returns `ERROR`, leaves the object `out` points to as it was
and the reader in state `ERROR`, and a client reading until the state is not `HAS_PAIR`
gets no pair. -/
theorem Next_on_key_without_value (r : KeyValueBlobReader) (out : KeyValue)
    (lines : List (List Char)) (bl k bl2 rest : List Char) (hr : r.Reachable)
    (hline : r.rest = lines.flatten ++ bl ++ k ++ bl2 ++ rest)
    (hlines : ∀ l ∈ lines, isBlankLine l = true ∨ isCommentLine l = true)
    (hbl : ∀ c ∈ bl, isBlank c = true)
    (hk : k ≠ []) (hkc : ∀ c ∈ k, isContent c = true) (hk1 : k.head? ≠ some '#')
    (hbl2 : ∀ c ∈ bl2, isBlank c = true)
    (hrest : ∀ c ∈ rest.head?, isLineEnding c = true) :
    (r.Next out).1 = State.ERROR ∧ (r.Next out).2.1 = out ∧
    (r.Next out).2.2.state_ = State.ERROR ∧
    ∀ fuel, r.drain (fuel + 1) out = some ([], State.ERROR) := by
  have hmain : (r.Next out).1 = State.ERROR := by
    simp only [List.append_assoc] at hline
    obtain ⟨c, k', hkeq⟩ := List.exists_cons_of_ne_nil hk
    have hcc : isContent c = true := hkc c (by simp [hkeq])
    have hc1 : c ≠ '#' := by
      intro h
      apply hk1
      rw [hkeq, h]
      rfl
    by_cases hErr : r.state_ = State.ERROR
    · rw [Next_of_stopped r out (Or.inl hErr)]
      exact hErr
    have hne : r.rest ≠ [] := by
      rw [hline, hkeq]
      simp
    have hEnd : r.state_ ≠ State.END := fun h => hne ((reader_inv r hr).1 h)
    have hrun : ¬ (r.state_ = State.ERROR ∨ r.state_ = State.END) := by
      rintro (h | h)
      · exact hErr h
      · exact hEnd h
    have hskip : skipToRecord false r.rest = c :: (k' ++ (bl2 ++ rest)) := by
      rw [hline, skipToRecord_ignorable_lines lines _ hlines, skipToRecord_blanks bl _ hbl,
        hkeq]
      exact skipToRecord_record c _ hcc hc1
    rw [Next_eq_scanRecord]
    simp only [hrun, if_false, hskip]
    have hs := scanRecord_no_value k bl2 rest out hkc hbl2 hrest
    rw [hkeq] at hs
    exact hs
  have hnp : (r.Next out).1 ≠ State.HAS_PAIR := by
    rw [hmain]
    decide
  refine ⟨hmain, Next_out r out hnp, by rw [Next_state_, hmain], fun fuel => ?_⟩
  rw [drain_of_not_pair r out fuel hnp, hmain]

/-- C12, on a blob where a comment and a blank line come before a key followed only by
blanks, and a well-formed record follows. -/
theorem Next_on_key_without_value_witness :
    (KeyValueBlobReader.mk_over "# note\n \t\r\n ㄍㄨㄥ  \nㄓㄨㄥ ㄨㄣˊ\n".data).Next {} =
      (State.ERROR, {}, { rest := "\nㄓㄨㄥ ㄨㄣˊ\n".data, state_ := State.ERROR }) ∧
    (KeyValueBlobReader.mk_over "# note\n \t\r\n ㄍㄨㄥ  \nㄓㄨㄥ ㄨㄣˊ\n".data).drain 5 {} =
      some ([], State.ERROR) ∧
    emitted "# note\n \t\r\n ㄍㄨㄥ  \nㄓㄨㄥ ㄨㄣˊ\n".data = [] := by
  have h := Next_on_key_without_value
    (KeyValueBlobReader.mk_over "# note\n \t\r\n ㄍㄨㄥ  \nㄓㄨㄥ ㄨㄣˊ\n".data) {}
    ["# note\n".data, " \t\r\n".data] " ".data "ㄍㄨㄥ".data "  ".data
    "\nㄓㄨㄥ ㄨㄣˊ\n".data (KeyValueBlobReader.Reachable.constructed _) (by decide)
    (by decide) (by decide) (by decide) (by decide) (by decide) (by decide) (by decide)
  exact ⟨by decide, h.2.2.2 4, by decide⟩

/-! ## The reader over a whole blob -/

theorem drain_succ (r : KeyValueBlobReader) (out : KeyValue) (fuel : Nat) :
    r.drain (fuel + 1) out =
      if (r.Next out).1 = State.HAS_PAIR then
        (KeyValueBlobReader.drain fuel (r.Next out).2.2 (r.Next out).2.1).map
          (fun res => ((r.Next out).2.1 :: res.1, res.2))
      else some ([], (r.Next out).1) := by
  split_ifs with h
  · conv_lhs => unfold KeyValueBlobReader.drain
    split
    · rename_i kv r' heq
      rw [heq]
    · rename_i st kv r' hne heq
      rw [heq] at h
      exact absurd h hne
  · exact drain_of_not_pair r out fuel h

theorem drain_congr_Next (r1 r2 : KeyValueBlobReader) (out : KeyValue) (fuel : Nat)
    (h : r1.Next out = r2.Next out) : r1.drain fuel out = r2.drain fuel out := by
  cases fuel with
  | zero => rfl
  | succ n => rw [drain_succ, drain_succ, h]

theorem drain_fuel (f1 f2 : Nat) (r : KeyValueBlobReader) (out : KeyValue)
    (h1 : r.rest.length < f1) (h2 : r.rest.length < f2) :
    r.drain f1 out = r.drain f2 out := by
  induction f1 generalizing f2 r out with
  | zero => omega
  | succ n ih =>
    cases f2 with
    | zero => omega
    | succ m =>
      rw [drain_succ, drain_succ]
      split_ifs with hp
      · have hlt := Next_HAS_PAIR_lt r out (r.Next out).2.1 (r.Next out).2.2
          (by rw [← hp])
        rw [ih m _ _ (by omega) (by omega)]
      · rfl

theorem parse_congr (b1 b2 : List Char)
    (h : ∀ fuel, (KeyValueBlobReader.mk_over b1).drain fuel {} =
      (KeyValueBlobReader.mk_over b2).drain fuel {}) :
    emitted b1 = emitted b2 ∧ finalState b1 = finalState b2 := by
  have d1 := drain_mk_over b1
  have d2 := drain_mk_over b2
  have e1 := drain_fuel (b1.length + 1) (b1.length + b2.length + 1)
    (KeyValueBlobReader.mk_over b1) {} (by simp [KeyValueBlobReader.mk_over])
    (by simp [KeyValueBlobReader.mk_over]; omega)
  have e2 := drain_fuel (b2.length + 1) (b1.length + b2.length + 1)
    (KeyValueBlobReader.mk_over b2) {} (by simp [KeyValueBlobReader.mk_over])
    (by simp [KeyValueBlobReader.mk_over]; omega)
  rw [e1] at d1
  rw [e2, ← h, d1] at d2
  simp only [Option.some.injEq, Prod.mk.injEq] at d2
  exact d2

theorem Next_record_append (pre Z : List Char) (a c : Char) (cs : List Char) (st : State)
    (out : KeyValue) (hst : ¬ (st = State.ERROR ∨ st = State.END))
    (hs : skipToRecord false pre = c :: cs) (ha : isLineEnding a = true) :
    KeyValueBlobReader.Next { rest := pre ++ a :: Z, state_ := st } out =
      ((scanRecord (c :: cs) out).1, (scanRecord (c :: cs) out).2.1,
        { rest := (scanRecord (c :: cs) out).2.2 ++ a :: Z,
          state_ := (scanRecord (c :: cs) out).1 }) := by
  rw [Next_eq_scanRecord]
  simp only [hst, if_false]
  rw [skipToRecord_append_cons false pre (a :: Z) c cs hs, List.cons_append]
  have := scanRecord_append (c :: cs) a Z out ha
  simp only [List.cons_append] at this
  dsimp only
  rw [this]

theorem drain_separator (a a' : Char) (as as' post : List Char)
    (ha : isLineEnding a = true) (ha' : isLineEnding a' = true)
    (has : ∀ Y, skipToRecord false (as ++ Y) = skipToRecord false Y)
    (has' : ∀ Y, skipToRecord false (as' ++ Y) = skipToRecord false Y)
    (fuel : Nat) (pre : List Char) (st : State) (out : KeyValue) :
    KeyValueBlobReader.drain fuel { rest := pre ++ a :: (as ++ post), state_ := st } out =
      KeyValueBlobReader.drain fuel
        { rest := pre ++ a' :: (as' ++ post), state_ := st } out := by
  induction fuel generalizing pre st out with
  | zero => rfl
  | succ n ih =>
    by_cases hst : st = State.ERROR ∨ st = State.END
    · have hnp : ∀ l : List Char,
          (KeyValueBlobReader.Next { rest := l, state_ := st } out).1 ≠ State.HAS_PAIR := by
        intro l
        rw [Next_of_stopped _ out hst]
        rcases hst with h | h <;> rw [h] <;> simp
      rw [drain_of_not_pair _ out n (hnp _), drain_of_not_pair _ out n (hnp _),
        Next_of_stopped _ out hst, Next_of_stopped _ out hst]
    · cases hs : skipToRecord false pre with
      | nil =>
        apply drain_congr_Next
        apply Next_congr_skip _ _ st out hst
        rw [skipToRecord_append_nil false pre a _ hs ha,
          skipToRecord_append_nil false pre a' _ hs ha', has, has']
      | cons c cs =>
        rw [drain_succ, drain_succ, Next_record_append pre _ a c cs st out hst hs ha,
          Next_record_append pre _ a' c cs st out hst hs ha']
        dsimp only
        split_ifs with hp
        · rw [hp, ih]
        · rfl

theorem lineEnding_single (pre post e1 e2 : List Char)
    (h1 : isLineEndingSeq e1 = true) (h2 : isLineEndingSeq e2 = true) (fuel : Nat) :
    (KeyValueBlobReader.mk_over (pre ++ e1 ++ post)).drain fuel {} =
      (KeyValueBlobReader.mk_over (pre ++ e2 ++ post)).drain fuel {} := by
  obtain ⟨a, as, he, ha, has⟩ := isLineEndingSeq_cases e1 h1
  obtain ⟨a', as', he', ha', has'⟩ := isLineEndingSeq_cases e2 h2
  rw [he, he']
  simp only [List.append_assoc, List.cons_append]
  exact drain_separator a a' as as' post ha ha'
    (fun Y => skipToRecord_lineEndings as Y has)
    (fun Y => skipToRecord_lineEndings as' Y has') fuel pre State.CAN_CONTINUE {}

theorem lineEnding_many (segs : List (List Char × List Char × List Char))
    (tail : List Char)
    (h : ∀ x ∈ segs, isLineEndingSeq x.2.1 = true ∧ isLineEndingSeq x.2.2 = true)
    (pre : List Char) (fuel : Nat) :
    (KeyValueBlobReader.mk_over
      (pre ++ ((segs.map (fun x => x.1 ++ x.2.1)).flatten ++ tail))).drain fuel {} =
    (KeyValueBlobReader.mk_over
      (pre ++ ((segs.map (fun x => x.1 ++ x.2.2)).flatten ++ tail))).drain fuel {} := by
  induction segs generalizing pre with
  | nil => rfl
  | cons x xs ih =>
    have hx := h x (by simp)
    have h1 := lineEnding_single (pre ++ x.1) ((xs.map (fun x => x.1 ++ x.2.1)).flatten ++ tail)
      x.2.1 x.2.2 hx.1 hx.2 fuel
    have h2 := ih (fun y hy => h y (by simp [hy])) (pre ++ x.1 ++ x.2.2)
    simp only [List.map_cons, List.flatten_cons, List.append_assoc] at h1 h2 ⊢
    rw [h1, h2]

/-- C15: the reader does not depend on the line-ending convention. For every blob and
every occurrence in it of a line ending (LF, CR or CR LF), the blob with that occurrence
replaced by any of the three line endings gives the same sequence of pairs and the same
final state. The same holds when several occurrences are replaced at once: `segs` lists
pieces of the blob, each followed by a line ending and by the line ending that replaces
it. -/
theorem lineEnding_agnostic :
    (∀ pre post e1 e2 : List Char, isLineEndingSeq e1 = true → isLineEndingSeq e2 = true →
      emitted (pre ++ e1 ++ post) = emitted (pre ++ e2 ++ post) ∧
      finalState (pre ++ e1 ++ post) = finalState (pre ++ e2 ++ post)) ∧
    (∀ (segs : List (List Char × List Char × List Char)) (tail : List Char),
      (∀ x ∈ segs, isLineEndingSeq x.2.1 = true ∧ isLineEndingSeq x.2.2 = true) →
      emitted ((segs.map (fun x => x.1 ++ x.2.1)).flatten ++ tail) =
        emitted ((segs.map (fun x => x.1 ++ x.2.2)).flatten ++ tail) ∧
      finalState ((segs.map (fun x => x.1 ++ x.2.1)).flatten ++ tail) =
        finalState ((segs.map (fun x => x.1 ++ x.2.2)).flatten ++ tail)) := by
  constructor
  · intro pre post e1 e2 h1 h2
    exact parse_congr _ _ (lineEnding_single pre post e1 e2 h1 h2)
  · intro segs tail h
    exact parse_congr _ _ (fun fuel => lineEnding_many segs tail h [] fuel)

/-- C15, on the example of the spec: its first LF replaced by CR LF, and its three LF
replaced at once by CR LF, CR and CR LF. -/
theorem lineEnding_agnostic_witness :
    emitted "ㄓㄨㄥ ㄨㄣˊ\r\n# note\nㄓㄨㄥ ㄍㄨㄥ\n".data =
      emitted "ㄓㄨㄥ ㄨㄣˊ\n# note\nㄓㄨㄥ ㄍㄨㄥ\n".data ∧
    emitted "ㄓㄨㄥ ㄨㄣˊ\r\n# note\rㄓㄨㄥ ㄍㄨㄥ\r\n".data =
      emitted "ㄓㄨㄥ ㄨㄣˊ\n# note\nㄓㄨㄥ ㄍㄨㄥ\n".data ∧
    emitted "ㄓㄨㄥ ㄨㄣˊ\n# note\nㄓㄨㄥ ㄍㄨㄥ\n".data =
      [{ key := "ㄓㄨㄥ", value := "ㄨㄣˊ" }, { key := "ㄓㄨㄥ", value := "ㄍㄨㄥ" }] :=
  ⟨(lineEnding_agnostic.1 "ㄓㄨㄥ ㄨㄣˊ".data "# note\nㄓㄨㄥ ㄍㄨㄥ\n".data "\r\n".data
      "\n".data (by decide) (by decide)).1,
    (lineEnding_agnostic.2
      [("ㄓㄨㄥ ㄨㄣˊ".data, "\r\n".data, "\n".data), ("# note".data, "\r".data, "\n".data),
        ("ㄓㄨㄥ ㄍㄨㄥ".data, "\r\n".data, "\n".data)] [] (by decide)).1,
    by decide⟩

theorem isLineStart_cases (pre : List Char) (h : isLineStart pre = true) :
    pre = [] ∨ ∃ p e, pre = p ++ [e] ∧ isLineEnding e = true := by
  rcases List.eq_nil_or_concat pre with h0 | ⟨p, e, h0⟩
  · exact Or.inl h0
  · right
    rw [List.concat_eq_append] at h0
    refine ⟨p, e, h0, ?_⟩
    rw [h0] at h
    simpa [isLineStart] using h

/-- C14: comment lines and blank lines are transparent. For every blob and every position
in it that is the start of a line (the start of the blob, or just after a line-ending
character), the blob with a blank line or a full-line comment inserted there gives the
same sequence of pairs and the same final state. -/
theorem comment_and_blank_lines_transparent (pre post X : List Char)
    (hpre : isLineStart pre = true)
    (hX : isBlankLine X = true ∨ isCommentLine X = true) :
    emitted (pre ++ X ++ post) = emitted (pre ++ post) ∧
    finalState (pre ++ X ++ post) = finalState (pre ++ post) := by
  apply parse_congr
  intro fuel
  rcases isLineStart_cases pre hpre with h0 | ⟨p, e, h0, he⟩
  · rw [h0]
    simp only [List.nil_append]
    apply drain_congr_Next
    exact Next_congr_skip _ _ State.CAN_CONTINUE {} (by decide)
      (skipToRecord_ignorable X post hX)
  · rw [h0]
    simp only [List.append_assoc, List.singleton_append]
    have := drain_separator e e X [] post he he
      (fun Y => skipToRecord_ignorable X Y hX) (fun Y => rfl) fuel p State.CAN_CONTINUE {}
    simpa using this

/-- C14, on the example of the spec: its comment line removed, and a blank line inserted
at the start and after the first record. -/
theorem comment_and_blank_lines_transparent_witness :
    emitted "ㄓㄨㄥ ㄨㄣˊ\n# note\nㄓㄨㄥ ㄍㄨㄥ\n".data =
      emitted "ㄓㄨㄥ ㄨㄣˊ\nㄓㄨㄥ ㄍㄨㄥ\n".data ∧
    emitted " \t\r\nㄓㄨㄥ ㄨㄣˊ\nㄓㄨㄥ ㄍㄨㄥ\n".data =
      emitted "ㄓㄨㄥ ㄨㄣˊ\nㄓㄨㄥ ㄍㄨㄥ\n".data ∧
    finalState "ㄓㄨㄥ ㄨㄣˊ\n \nㄍㄨㄥ\n".data = finalState "ㄓㄨㄥ ㄨㄣˊ\nㄍㄨㄥ\n".data ∧
    emitted "ㄓㄨㄥ ㄨㄣˊ\nㄓㄨㄥ ㄍㄨㄥ\n".data =
      [{ key := "ㄓㄨㄥ", value := "ㄨㄣˊ" }, { key := "ㄓㄨㄥ", value := "ㄍㄨㄥ" }] :=
  ⟨(comment_and_blank_lines_transparent "ㄓㄨㄥ ㄨㄣˊ\n".data "ㄓㄨㄥ ㄍㄨㄥ\n".data
      "# note\n".data (by decide) (by decide)).1,
    (comment_and_blank_lines_transparent [] "ㄓㄨㄥ ㄨㄣˊ\nㄓㄨㄥ ㄍㄨㄥ\n".data
      " \t\r\n".data (by decide) (by decide)).1,
    (comment_and_blank_lines_transparent "ㄓㄨㄥ ㄨㄣˊ\n".data "ㄍㄨㄥ\n".data
      " \n".data (by decide) (by decide)).2,
    by decide⟩

/-! ## The index over the life of an instance -/

theorem call_preserves (P : CNSLM → Prop)
    (hopen : ∀ s path os b s' e, P s → s.open path os = some (b, s', e) → P s')
    (hclose : ∀ s, P s → P s.close.1)
    (s s' : CNSLM) (c : Call) (e : List Effect) (hP : P s)
    (h : s.call c = some (s', e)) : P s' := by
  cases c with
  | «open» path os =>
    simp only [CNSLM.call, Option.map_eq_some'] at h
    obtain ⟨⟨b, s1, e1⟩, h1, h2⟩ := h
    simp only [Prod.mk.injEq] at h2
    rw [← h2.1]
    exact hopen s path os b s1 e1 hP h1
  | close =>
    simp only [CNSLM.call, Option.some.injEq, Prod.ext_iff] at h
    rw [← h.1]
    exact hclose s hP
  | unigramsForKey key =>
    simp only [CNSLM.call, CNSLM.unigramsForKey, Option.some.injEq, Prod.mk.injEq] at h
    rw [← h.1]
    split <;> exact hP
  | hasUnigramsForKey key =>
    simp only [CNSLM.call, CNSLM.hasUnigramsForKey, Option.some.injEq, Prod.mk.injEq] at h
    rw [← h.1]
    exact hP
  | bigramsForKeys a b =>
    simp only [CNSLM.call, CNSLM.bigramsForKeys, Option.some.injEq, Prod.mk.injEq] at h
    rw [← h.1]
    exact hP

theorem run_preserves (P : CNSLM → Prop)
    (hopen : ∀ s path os b s' e, P s → s.open path os = some (b, s', e) → P s')
    (hclose : ∀ s, P s → P s.close.1)
    (calls : List Call) (s s' : CNSLM) (e : List Effect) (hP : P s)
    (h : s.run calls = some (s', e)) : P s' := by
  induction calls generalizing s e with
  | nil =>
    simp only [CNSLM.run, Option.some.injEq, Prod.mk.injEq] at h
    rw [← h.1]
    exact hP
  | cons c cs ih =>
    unfold CNSLM.run at h
    split at h
    · simp at h
    · rename_i s1 e1 hc
      simp only [Option.map_eq_some'] at h
      obtain ⟨⟨s2, e2⟩, h1, h2⟩ := h
      simp only [Prod.mk.injEq] at h2
      rw [h2.1] at h1
      exact ih s1 e2 (call_preserves P hopen hclose s s1 c e1 hP hc) h1

theorem reachable_loaded (s : CNSLM) (h : s.Reachable) :
    ∃ pairs, s.keyRowMap = loadPairs KeyRowMap.clear pairs := by
  obtain ⟨calls, e, hrun⟩ := h
  have := run_preserves
    (fun s => s.Inv ∧ ∃ pairs, s.keyRowMap = loadPairs KeyRowMap.clear pairs)
    (fun s path os b s' e hP ho => by
      refine ⟨open_inv s s' path os b e hP.1 ho, ?_⟩
      cases b with
      | false =>
        rw [(open_false s s' path os e ho).2]
        exact hP.2
      | true =>
        obtain ⟨h0, _, hm⟩ := open_true s s' path os e ho
        rw [hP.1.1 h0] at hm
        exact ⟨_, hm⟩)
    (fun s _ => ⟨close_inv s, [], by
      unfold CNSLM.close
      split_ifs <;> rfl⟩)
    calls CNSLM.new s e ⟨new_inv, [], rfl⟩ hrun
  exact this.2

/-- C16: in every state a client can bring a fresh instance to, an instance that holds no
mapping (`data` is null) has an empty index; so after every `open` that returns `true`,
the bucket of every phrase is the one built from the pairs emitted over the file of that
`open` alone. -/
theorem index_empty_without_mapping (s : CNSLM) (hs : s.Reachable) :
    (s.data = 0 → s.keyRowMap = KeyRowMap.clear ∧ ∀ p, s.keyRowMap.find p = none) ∧
    (∀ path os s' e, s.open path os = some (true, s', e) →
      ∀ p, s'.keyRowMap.find p = rowsOf (emitted os.file.data) p) := by
  have hinv := (reachable_inv s hs).1
  constructor
  · intro h0
    refine ⟨hinv h0, fun p => ?_⟩
    rw [hinv h0]
    rfl
  · intro path os s' e ho p
    obtain ⟨h0, _, hm⟩ := open_true s s' path os e ho
    rw [hinv h0] at hm
    exact find_of_bucket s' _ p hm

theorem open_truncatedEnv (s : CNSLM) (path : String) (h0 : s.data = 0) :
    ∃ s' e, s.open path truncatedEnv = some (true, s', e) :=
  ⟨_, _, open_mapped s path truncatedEnv h0 (by decide) (by decide) (by decide)
    (by decide)⟩

/-- C16, on the instance left by `open` on the example of the spec and `close()`: its
index is empty, and an `open` of another file gives an index without the phrase `ㄍㄨㄥ`
of the earlier file. -/
theorem index_empty_without_mapping_witness :
    exampleClosed.Reachable ∧ exampleClosed.keyRowMap.find "ㄍㄨㄥ" = none ∧
    ∃ s' e, exampleClosed.open "other.txt" truncatedEnv = some (true, s', e) ∧
      s'.keyRowMap.find "ㄍㄨㄥ" = none ∧
      s'.keyRowMap.find "ㄨㄣˊ" = some [{ key := "ㄨㄣˊ", value := "ㄓㄨㄥ" }] := by
  have h := index_empty_without_mapping exampleClosed exampleClosed_reachable
  obtain ⟨s', e, ho⟩ := open_truncatedEnv exampleClosed "other.txt" rfl
  refine ⟨exampleClosed_reachable, (h.1 rfl).2 "ㄍㄨㄥ", s', e, ho, ?_, ?_⟩
  · rw [h.2 _ _ _ _ ho "ㄍㄨㄥ"]
    decide
  · rw [h.2 _ _ _ _ ho "ㄨㄣˊ"]
    decide

/-- C17: in every state a client can bring a fresh instance to, every row of the bucket
of a phrase `p` has `p` as its `key`; so every record `unigramsForKey(k)` returns has
`keyValue.key` equal to `k` and the score `-17.0`. -/
theorem rows_keyed_by_phrase (s : CNSLM) (hs : s.Reachable) :
    (∀ p rows row, s.keyRowMap.find p = some rows → row ∈ rows → row.key = p) ∧
    (∀ k g, g ∈ (s.unigramsForKey k).1 → g.keyValue.key = k ∧ g.score = -17) := by
  obtain ⟨pairs, hm⟩ := reachable_loaded s hs
  constructor
  · intro p rows row hfind hrow
    rw [find_of_bucket s pairs p hm] at hfind
    unfold rowsOf at hfind
    split_ifs at hfind
    simp only [Option.some.injEq] at hfind
    rw [← hfind, List.mem_map] at hrow
    obtain ⟨kv, _, hkv⟩ := hrow
    rw [← hkv]
  · intro k g hg
    rw [unigramsForKey_of_bucket s pairs k hm] at hg
    unfold unigramsOf at hg
    rw [List.mem_map] at hg
    obtain ⟨kv, _, hkv⟩ := hg
    rw [← hkv]
    exact ⟨rfl, rfl⟩

/-- C17, on the instance loaded from the example of the spec. -/
theorem rows_keyed_by_phrase_witness :
    exampleLoaded.Reachable ∧
    exampleLoaded.keyRowMap.find "ㄨㄣˊ" = some [{ key := "ㄨㄣˊ", value := "ㄓㄨㄥ" }] ∧
    (∀ row ∈ [({ key := "ㄨㄣˊ", value := "ㄓㄨㄥ" } : Row)], row.key = "ㄨㄣˊ") ∧
    (∀ g ∈ (exampleLoaded.unigramsForKey "ㄍㄨㄥ").1,
      g.keyValue.key = "ㄍㄨㄥ" ∧ g.score = -17) ∧
    (exampleLoaded.unigramsForKey "ㄍㄨㄥ").1 ≠ [] := by
  have h := rows_keyed_by_phrase exampleLoaded exampleLoaded_reachable
  exact ⟨exampleLoaded_reachable, by decide,
    fun row hrow => h.1 "ㄨㄣˊ" _ row (by decide) hrow,
    fun g hg => h.2 "ㄍㄨㄥ" g hg, by decide⟩

theorem open_effects_head (s s' : CNSLM) (path : String) (os : OpenEnv) (b : Bool)
    (e : List Effect) (hdata : s.data = 0) (h : s.open path os = some (b, s', e)) :
    ∃ rest, e = Effect.sys_open path os.open_ret :: rest := by
  by_cases hopen : os.open_ret = -1
  · rw [open_not_found s path os hdata hopen] at h
    simp only [Option.some.injEq, Prod.mk.injEq] at h
    exact ⟨_, h.2.2.symm⟩
  by_cases hstat : os.fstat_ret = -1
  · rw [open_stat_failure s path os hdata hopen hstat] at h
    simp only [Option.some.injEq, Prod.mk.injEq] at h
    exact ⟨_, h.2.2.symm⟩
  by_cases hnull : os.mmap_ret = 0
  · rw [open_null s path os hdata hopen hstat hnull] at h
    simp only [Option.some.injEq, Prod.mk.injEq] at h
    exact ⟨_, h.2.2.symm⟩
  by_cases hmap : os.mmap_ret = MAP_FAILED
  · by_cases hlen : os.file.data.length = 0
    · rw [open_map_failed_empty s path os hdata hopen hstat hmap hlen] at h
      simp only [Option.some.injEq, Prod.mk.injEq] at h
      exact ⟨_, h.2.2.symm⟩
    · rw [open_map_failed_fault s path os hdata hopen hstat hmap hlen] at h
      simp at h
  · rw [open_mapped s path os hdata hopen hstat hnull hmap] at h
    simp only [Option.some.injEq, Prod.mk.injEq] at h
    exact ⟨_, h.2.2.symm⟩

theorem close_data (s : CNSLM) : s.close.1.data = 0 := by
  unfold CNSLM.close
  split_ifs with h
  · rfl
  · simpa using h

theorem close_keyRowMap (s : CNSLM) : s.close.1.keyRowMap = KeyRowMap.clear := by
  unfold CNSLM.close
  split_ifs <;> rfl

/-- C18: an instance can be opened again after `close()`. For every instance `s`, the
instance `close()` leaves holds no mapping, so an `open` on it is not refused as already
open: when it returns, it has made the `::open` system call. When the path opens, `fstat`
succeeds and `mmap` establishes the mapping, that `open` returns `true`, and the bucket
of every phrase and the answer of `unigramsForKey` are those built from the pairs
emitted over the new file alone. -/
theorem reopen_after_close (s : CNSLM) (path : String) (os : OpenEnv) :
    s.close.1.data = 0 ∧
    (∀ b s' e, s.close.1.open path os = some (b, s', e) →
      ∃ rest, e = Effect.sys_open path os.open_ret :: rest) ∧
    (os.open_ret ≠ -1 → os.fstat_ret ≠ -1 → os.mmap_ret ≠ 0 → os.mmap_ret ≠ MAP_FAILED →
      ∃ s' e, s.close.1.open path os = some (true, s', e) ∧ s'.data = os.mmap_ret ∧
        ∀ p, s'.keyRowMap.find p = rowsOf (emitted os.file.data) p ∧
          (s'.unigramsForKey p).1 = unigramsOf (emitted os.file.data) p) := by
  refine ⟨close_data s, fun b s' e h => open_effects_head _ s' path os b e (close_data s) h,
    fun hopen hstat hnull hmap => ?_⟩
  have ho := open_mapped s.close.1 path os (close_data s) hopen hstat hnull hmap
  refine ⟨_, _, ho, rfl, fun p => ?_⟩
  have hm : loadPairs s.close.1.keyRowMap (emitted os.file.data) =
      loadPairs KeyRowMap.clear (emitted os.file.data) := by
    rw [close_keyRowMap]
  exact ⟨find_of_bucket _ _ p hm, unigramsForKey_of_bucket _ _ p hm⟩

/-- C18, on the instance loaded from the example of the spec, closed and opened on
another file: the phrase `ㄍㄨㄥ` of the first file is gone. -/
theorem reopen_after_close_witness :
    ∃ s' e, exampleLoaded.close.1.open "other.txt" truncatedEnv = some (true, s', e) ∧
      s'.data = 4096 ∧
      (s'.unigramsForKey "ㄨㄣˊ").1 =
        [{ keyValue := { key := "ㄨㄣˊ", value := "ㄓㄨㄥ" }, score := -17 }] ∧
      (s'.unigramsForKey "ㄍㄨㄥ").1 = [] := by
  obtain ⟨s', e, ho, hd, hq⟩ := (reopen_after_close exampleLoaded "other.txt"
    truncatedEnv).2.2 (by decide) (by decide) (by decide) (by decide)
  refine ⟨s', e, ho, hd, ?_, ?_⟩
  · rw [(hq "ㄨㄣˊ").2]
    decide
  · rw [(hq "ㄍㄨㄥ").2]
    decide

end vChewing
